import Mathlib

/-!
# Verification of a grep-style regex engine

Shallow embedding of the regex engine (syntax tree, recursive-descent
parser, state-set matcher) of the `codecrafters-grep-rust` repository,
together with proofs checking the natural-language specification against
this embedding.

Conventions of the embedding:
* The pattern and the input are `List Char`; the Rust code advances byte
  offsets by `len_utf8`, which corresponds one-to-one to advancing a
  character index by 1, so positions here are character indices.
* The Rust parser is a set of mutually recursive methods with no fuel;
  here each parsing function takes an explicit fuel argument (decremented
  at every call) and returns `none` on fuel exhaustion.  A proved
  fuel-sufficiency theorem shows `6 * length + 7` fuel always succeeds,
  which is the formal counterpart of "the Rust parser always terminates".
* The Rust matcher contains a `while` loop (the one-or-more fixpoint
  iteration) that does not terminate on some inputs; it is embedded with
  a fuel argument consumed only by that loop, so `none` for every fuel
  means the Rust loop runs forever, and `some r` for some fuel means the
  Rust code returns `r`.
* `Char.isAlphanum` (ASCII) stands in for Rust's Unicode
  `char::is_alphanumeric`; no theorem below depends on which alphabet
  the word-character predicate accepts.
-/

namespace Grep

/-- `RepeatKind` from `src/ast.rs`: the two supported postfix quantifiers. -/
inductive RepeatKind where
  | ZeroOrOne
  | OneOrMore
deriving Repr, DecidableEq

/-- `RegexNode` from `src/ast.rs`: the closed set of syntax-tree variants. -/
inductive RegexNode where
  | Seq (nodes : List RegexNode)
  | Alt (branches : List RegexNode)
  | Repeat (node : RegexNode) (kind : RepeatKind)
  | Group (id : Nat) (node : RegexNode)
  | BackRef (id : Nat)
  | StartAnchor
  | EndAnchor
  | Dot
  | Digit
  | Word
  | CharClass (chars : List Char) (negated : Bool)
  | Literal (c : Char)
deriving Repr

/-- `max_group_id` from `src/matcher.rs`: the maximum group identifier
contained in a subtree (`v.iter().map(max_group_id).max().unwrap_or(0)`
is the right fold of `max` with default `0`). -/
def max_group_id : RegexNode → Nat
  | .Group id node => max id (max_group_id node)
  | .Seq [] => 0
  | .Seq (n :: ns) => max (max_group_id n) (max_group_id (.Seq ns))
  | .Alt [] => 0
  | .Alt (n :: ns) => max (max_group_id n) (max_group_id (.Alt ns))
  | .Repeat node _ => max_group_id node
  | _ => 0

/-- All group identifiers occurring in a subtree, in preorder (a group's
own identifier before the identifiers inside it, children left to right). -/
def group_ids : RegexNode → List Nat
  | .Group id node => id :: group_ids node
  | .Seq [] => []
  | .Seq (n :: ns) => group_ids n ++ group_ids (.Seq ns)
  | .Alt [] => []
  | .Alt (n :: ns) => group_ids n ++ group_ids (.Alt ns)
  | .Repeat node _ => group_ids node
  | _ => []

/-- A node is an atom shape: a possible result of `parse_atom` other than
the end-of-pattern empty `Seq`.  In particular never a `Repeat`. -/
def isAtomShape : RegexNode → Bool
  | .Seq _ => false
  | .Alt _ => false
  | .Repeat _ _ => false
  | _ => true

/-- Structural well-formedness of parser output: the inner node of every
`Repeat` is an atom shape (so in particular quantifiers never stack). -/
def repOk : RegexNode → Bool
  | .Seq [] => true
  | .Seq (n :: ns) => repOk n && repOk (.Seq ns)
  | .Alt [] => true
  | .Alt (n :: ns) => repOk n && repOk (.Alt ns)
  | .Repeat node _ => isAtomShape node && repOk node
  | .Group _ node => repOk node
  | _ => true

/-- A tree contains no groups, no backreferences and no anchors
(the restriction of the refinement claim). -/
def plainB : RegexNode → Bool
  | .Seq [] => true
  | .Seq (n :: ns) => plainB n && plainB (.Seq ns)
  | .Alt [] => true
  | .Alt (n :: ns) => plainB n && plainB (.Alt ns)
  | .Repeat node _ => plainB node
  | .Group _ _ => false
  | .BackRef _ => false
  | .StartAnchor => false
  | .EndAnchor => false
  | _ => true

/-! ## Parser

`Parser` from `src/parser.rs`.  The struct fields `pattern`, `pos`,
`next_group_id` become `PState`; each Rust method becomes a fueled
function (`while` loops become auxiliary `_rest` functions).  Fuel is
decremented at every call and `none` signals fuel exhaustion. -/

/-- The parser state: `Parser { pattern, pos, next_group_id }`. -/
structure PState where
  pattern : List Char
  pos : Nat
  next_group_id : Nat
deriving Repr, DecidableEq

/-- `Parser::peek`. -/
def peek (s : PState) : Option Char := s.pattern.get? s.pos

/-- `Parser::advance`: returns the consumed character (if any) and the
new state (advancing a byte position by `len_utf8` corresponds to
advancing the character index by 1). -/
def advance (s : PState) : Option Char × PState :=
  match peek s with
  | none => (none, s)
  | some c => (some c, { s with pos := s.pos + 1 })

/-- `Parser::expect`. -/
def expect (s : PState) (expected : Char) : Bool × PState :=
  if peek s = some expected then (true, (advance s).2) else (false, s)

/-- `Parser::alloc_group_id`. -/
def alloc_group_id (s : PState) : Nat × PState :=
  (s.next_group_id, { s with next_group_id := s.next_group_id + 1 })

/-- The final step of `parse_alt`: a single branch collapses to that
branch, otherwise an `Alt` node is built. -/
def mkAlt (branches : List RegexNode) : RegexNode :=
  match branches with
  | [b] => b
  | bs => RegexNode.Alt bs

mutual

/-- `Parser::parse_alt`. -/
def parse_alt : Nat → PState → Option (RegexNode × PState)
  | 0, _ => none
  | f + 1, s =>
    match parse_seq f s with
    | none => none
    | some (n, s1) => parse_alt_rest f s1 [n]

/-- The `while self.peek() == Some('|')` loop of `Parser::parse_alt`. -/
def parse_alt_rest : Nat → PState → List RegexNode → Option (RegexNode × PState)
  | 0, _, _ => none
  | f + 1, s, branches =>
    if peek s = some '|' then
      match parse_seq f (advance s).2 with
      | none => none
      | some (n, s2) => parse_alt_rest f s2 (branches ++ [n])
    else
      some (mkAlt branches, s)

/-- `Parser::parse_seq`. -/
def parse_seq : Nat → PState → Option (RegexNode × PState)
  | 0, _ => none
  | f + 1, s =>
    match parse_seq_rest f s [] with
    | none => none
    | some (ns, s1) => some (RegexNode.Seq ns, s1)

/-- The `while let Some(ch) = self.peek()` loop of `Parser::parse_seq`. -/
def parse_seq_rest : Nat → PState → List RegexNode → Option (List RegexNode × PState)
  | 0, _, _ => none
  | f + 1, s, acc =>
    match peek s with
    | none => some (acc, s)
    | some ch =>
      if ch = ')' ∨ ch = '|' then some (acc, s)
      else
        match parse_repeat f s with
        | none => none
        | some (n, s1) => parse_seq_rest f s1 (acc ++ [n])

/-- `Parser::parse_repeat`. -/
def parse_repeat : Nat → PState → Option (RegexNode × PState)
  | 0, _ => none
  | f + 1, s =>
    match parse_atom f s with
    | none => none
    | some (atom, s1) =>
      match peek s1 with
      | some '?' => some (RegexNode.Repeat atom RepeatKind.ZeroOrOne, (advance s1).2)
      | some '+' => some (RegexNode.Repeat atom RepeatKind.OneOrMore, (advance s1).2)
      | _ => some (atom, s1)

/-- `Parser::parse_atom`. -/
def parse_atom : Nat → PState → Option (RegexNode × PState)
  | 0, _ => none
  | f + 1, s =>
    match peek s with
    | some '(' =>
      let s1 := (advance s).2
      let (id, s2) := alloc_group_id s1
      match parse_alt f s2 with
      | none => none
      | some (n, s3) => some (RegexNode.Group id n, (expect s3 ')').2)
    | some '[' => parse_char_class f s
    | some '\\' =>
      let s1 := (advance s).2
      match advance s1 with
      | (some c, s2) =>
        if c = 'd' then some (RegexNode.Digit, s2)
        else if c = 'w' then some (RegexNode.Word, s2)
        else if c.isDigit ∧ c ≠ '0' then
          some (RegexNode.BackRef (c.toNat - '0'.toNat), s2)
        else some (RegexNode.Literal c, s2)
      | (none, s2) => some (RegexNode.Literal '\\', s2)
    | some '.' => some (RegexNode.Dot, (advance s).2)
    | some '^' => some (RegexNode.StartAnchor, (advance s).2)
    | some '$' => some (RegexNode.EndAnchor, (advance s).2)
    | some c => some (RegexNode.Literal c, (advance s).2)
    | none => some (RegexNode.Seq [], s)

/-- `Parser::parse_char_class`. -/
def parse_char_class : Nat → PState → Option (RegexNode × PState)
  | 0, _ => none
  | f + 1, s =>
    let s1 := (advance s).2
    let (negated, s2) :=
      if peek s1 = some '^' then (true, (advance s1).2) else (false, s1)
    match class_chars f s2 [] with
    | none => none
    | some (cs, s3) => some (RegexNode.CharClass cs negated, (expect s3 ']').2)

/-- The member-reading loop of `Parser::parse_char_class`. -/
def class_chars : Nat → PState → List Char → Option (List Char × PState)
  | 0, _, _ => none
  | f + 1, s, acc =>
    match peek s with
    | none => some (acc, s)
    | some ch =>
      if ch = ']' then some (acc, s)
      else class_chars f (advance s).2 (acc ++ [ch])

end

/-- Fuel that always suffices for the parser (proved below). -/
def parserFuel (pattern : List Char) : Nat := 6 * pattern.length + 7

/-- `Parser::new(pattern)` followed by `Parser::parse`, with sufficient
fuel; `none` would mean the Rust parser does not terminate. -/
def parseOpt (pattern : List Char) : Option RegexNode :=
  match parse_alt (parserFuel pattern) ⟨pattern, 0, 1⟩ with
  | some (n, _) => some n
  | none => none

/-- The compiled tree of a pattern.  By the totality theorem `parseOpt`
is always `some`, so the default is never taken. -/
def parse (pattern : List Char) : RegexNode :=
  (parseOpt pattern).getD (RegexNode.Seq [])

/-! ## Matcher

`src/matcher.rs`.  A matcher state is a position plus a capture table.
The structural recursion of `match_with_state` always terminates, but
the `while !frontier.is_empty()` loop of the one-or-more case need not;
the embedding therefore carries a fuel argument that is consumed only
by iterations of that loop (`plus_loop`).  `none` for every fuel value
means the Rust loop runs forever. -/

/-- `MatchState` from `src/matcher.rs`. -/
structure MatchState where
  pos : Nat
  captures : List (Option (Nat × Nat))
deriving Repr, DecidableEq

/-- Rust `char::is_digit(10)`: the ASCII decimal digits. -/
def isDigitChar (c : Char) : Bool := c.isDigit

/-- Rust `c.is_alphanumeric() || c == '_'` (alphanumeric approximated by
the ASCII predicate, see the header note). -/
def isWordChar (c : Char) : Bool := c.isAlphanum || c = '_'

/-- Stable insertion of a state into a position-sorted list: the inserted
state goes before later-encountered states of equal position. -/
def insertByPos (x : MatchState) : List MatchState → List MatchState
  | [] => [x]
  | y :: ys => if x.pos ≤ y.pos then x :: y :: ys else y :: insertByPos x ys

/-- Rust `sort_by_key(|s| s.pos)`: a stable sort by position (all stable
sorts agree, so insertion sort gives the exact Rust output order). -/
def sortByPos (l : List MatchState) : List MatchState := l.foldr insertByPos []

/-- The run-skipping tail of `dedupByPos`: drops states whose position
equals the most recently kept state's position. -/
def dedup_go (prev : MatchState) : List MatchState → List MatchState
  | [] => []
  | y :: ys => if y.pos = prev.pos then dedup_go prev ys else y :: dedup_go y ys

/-- Rust `dedup_by_key(|s| s.pos)`: of each run of consecutive states
with equal position, only the first is retained. -/
def dedupByPos : List MatchState → List MatchState
  | [] => []
  | x :: xs => x :: dedup_go x xs

/-- The result-accumulation step of the one-or-more loop: push each
frontier state whose position is not yet present in `results`. -/
def push_distinct (results frontier : List MatchState) : List MatchState :=
  frontier.foldl
    (fun rs st => if rs.any (fun r => r.pos = st.pos) then rs else rs ++ [st]) results

mutual

/-- `match_with_state` from `src/matcher.rs`. -/
def match_with_state (f : Nat) (node : RegexNode) (input : List Char)
    (state : MatchState) : Option (List MatchState) :=
  match node with
  | .Literal c =>
    match input.get? state.pos with
    | some ch => if ch = c then some [{ state with pos := state.pos + 1 }] else some []
    | none => some []
  | .Dot =>
    match input.get? state.pos with
    | some _ => some [{ state with pos := state.pos + 1 }]
    | none => some []
  | .Digit =>
    match input.get? state.pos with
    | some ch =>
      if isDigitChar ch then some [{ state with pos := state.pos + 1 }] else some []
    | none => some []
  | .Word =>
    match input.get? state.pos with
    | some ch =>
      if isWordChar ch then some [{ state with pos := state.pos + 1 }] else some []
    | none => some []
  | .CharClass chars negated =>
    match input.get? state.pos with
    | some ch =>
      if (negated && !chars.contains ch) || (!negated && chars.contains ch) then
        some [{ state with pos := state.pos + 1 }]
      else some []
    | none => some []
  | .StartAnchor => if state.pos = 0 then some [state] else some []
  | .EndAnchor => if state.pos = input.length then some [state] else some []
  | .Group id inner =>
    match match_with_state f inner input state with
    | none => none
    | some rs =>
      some (rs.map fun ns =>
        if id < ns.captures.length then
          { ns with captures := ns.captures.set id (some (state.pos, ns.pos)) }
        else ns)
  | .BackRef id =>
    if state.captures.length ≤ id then some []
    else
      match state.captures.getD id none with
      | some (sp, ep) =>
        let len := ep - sp
        if state.pos + len ≤ input.length ∧
            (input.drop sp).take len = (input.drop state.pos).take len then
          some [{ state with pos := state.pos + len }]
        else some []
      | none => some []
  | .Seq nodes => seq_go f nodes input [state]
  | .Alt branches =>
    match alt_go f branches input state with
    | none => none
    | some all => some (dedupByPos (sortByPos all))
  | .Repeat inner .ZeroOrOne =>
    match match_with_state f inner input state with
    | none => none
    | some rs => some (dedupByPos (sortByPos (state :: rs)))
  | .Repeat inner .OneOrMore =>
    match match_with_state f inner input state with
    | none => none
    | some frontier => plus_loop f inner input frontier []

/-- One child-step of the state-set fold: `match_with_state` applied to
each state in order, results concatenated. -/
def map_states (f : Nat) (node : RegexNode) (input : List Char) :
    List MatchState → Option (List MatchState)
  | [] => some []
  | st :: rest =>
    match match_with_state f node input st with
    | none => none
    | some rs =>
      match map_states f node input rest with
      | none => none
      | some rest2 => some (rs ++ rest2)

/-- The child fold of the `Seq` case: thread the state set through the
children, sorting and deduplicating by position after each child and
short-circuiting to the empty result when a child yields no state. -/
def seq_go (f : Nat) (nodes : List RegexNode) (input : List Char)
    (states : List MatchState) : Option (List MatchState) :=
  match nodes with
  | [] => some states
  | n :: rest =>
    match map_states f n input states with
    | none => none
    | some next =>
      if next.isEmpty then some []
      else seq_go f rest input (dedupByPos (sortByPos next))

/-- The branch fold of the `Alt` case: every branch matched from the
same state, results concatenated (sorting and deduplication happen once
afterwards, in `match_with_state`). -/
def alt_go (f : Nat) (branches : List RegexNode) (input : List Char)
    (state : MatchState) : Option (List MatchState) :=
  match branches with
  | [] => some []
  | b :: rest =>
    match match_with_state f b input state with
    | none => none
    | some rs =>
      match alt_go f rest input state with
      | none => none
      | some rest2 => some (rs ++ rest2)

/-- The `while !frontier.is_empty()` loop of the one-or-more case:
accumulate distinct-position states, apply the inner node to the whole
frontier, sort and deduplicate, and iterate.  One fuel unit per
iteration; the Rust loop has no fuel and simply never stops when the
frontier never empties. -/
def plus_loop (f : Nat) (inner : RegexNode) (input : List Char)
    (frontier results : List MatchState) : Option (List MatchState) :=
  if frontier.isEmpty then some results
  else
    match f with
    | 0 => none
    | f' + 1 =>
      let results2 := push_distinct results frontier
      match map_states (f' + 1) inner input frontier with
      | none => none
      | some nextRaw => plus_loop f' inner input (dedupByPos (sortByPos nextRaw)) results2

end

/-- `match_node` from `src/matcher.rs`: size the capture table from the
tree's maximum group identifier, run the matcher, keep end positions. -/
def match_node (f : Nat) (node : RegexNode) (input : List Char) (start : Nat) :
    Option (List Nat) :=
  match match_with_state f node input
      ⟨start, List.replicate (max_group_id node + 1) none⟩ with
  | none => none
  | some rs => some (rs.map (·.pos))

/-- The start-offset loop of `is_match` from `src/lib.rs`. -/
def is_match_go (f : Nat) (ast : RegexNode) (chars : List Char) :
    List Nat → Option Bool
  | [] => some false
  | start :: rest =>
    match match_node f ast chars start with
    | none => none
    | some r => if r.isEmpty then is_match_go f ast chars rest else some true

/-- `is_match` from `src/lib.rs`: parse, then try start offsets `0`
through `input.length` in increasing order. -/
def is_match (f : Nat) (input pattern : List Char) : Option Bool :=
  is_match_go f (parse pattern) input (List.range (input.length + 1))

/-- Termination of one matcher invocation: some fuel suffices (the Rust
loop is fuel-free, so this says the Rust call returns). -/
def MatcherTerminates (node : RegexNode) (input : List Char) (start : Nat) : Prop :=
  ∃ f, (match_node f node input start).isSome

/-- Common postcondition of a parsing function run from state `s`
producing tree `t` and final state `s2`: the pattern is preserved, the
position is monotone and stays inside the pattern, the group counter is
monotone, the tree's group identifiers (in preorder) are exactly the
identifiers allocated during the call — a contiguous range — and every
`Repeat` inner node of the tree is an atom shape. -/
def PostOk (s : PState) (t : RegexNode) (s2 : PState) : Prop :=
  s2.pattern = s.pattern ∧ s.pos ≤ s2.pos ∧ s2.pos ≤ s.pattern.length ∧
  s.next_group_id ≤ s2.next_group_id ∧
  group_ids t = List.range' s.next_group_id (s2.next_group_id - s.next_group_id) ∧
  repOk t = true

/-- Bound invariant on a matcher state: position at least `lb`, at most
the input length, capture table of length `CL`. -/
def BInv (input : List Char) (lb CL : Nat) (a : MatchState) : Prop :=
  lb ≤ a.pos ∧ a.pos ≤ input.length ∧ a.captures.length = CL

/-- The per-node matcher invariant: from any in-bounds state, every
result state has a position between the start position and the input
length and an unchanged capture-table length. -/
def NodeBounded (node : RegexNode) : Prop :=
  ∀ f input st r, st.pos ≤ input.length → match_with_state f node input st = some r →
    ∀ a ∈ r, BInv input st.pos st.captures.length a

/-- A single-character-consuming leaf node: the possible `Repeat` inner
nodes of a parser output once groups, backreferences and anchors are
excluded. -/
def isLeaf : RegexNode → Bool
  | .Dot => true
  | .Digit => true
  | .Word => true
  | .CharClass _ _ => true
  | .Literal _ => true
  | _ => false

/-- Whether a leaf node accepts the character at position `p`. -/
def leafAccept (node : RegexNode) (input : List Char) (p : Nat) : Bool :=
  match input.get? p with
  | none => false
  | some ch =>
    match node with
    | .Dot => true
    | .Digit => isDigitChar ch
    | .Word => isWordChar ch
    | .CharClass chars negated =>
      (negated && !chars.contains ch) || (!negated && chars.contains ch)
    | .Literal c => ch = c
    | _ => false

/-- Modelled from the spec: the reference brute-force recursive matcher
of section 8, "a reference brute-force recursive matcher without the
state-set optimization", defined for the fragment the refinement claim
concerns (no groups, no backreferences, no anchors).  A derivation
`BMatch node input p q` is one backtracking path matching `node` against
`input` from position `p` to position `q`: single-character nodes
consume one accepted character; a sequence chains its children; an
alternation picks any branch; `?` matches zero or one occurrence; `+`
one or more. -/
inductive BMatch : RegexNode → List Char → Nat → Nat → Prop where
  | lit {input : List Char} {p : Nat} {c : Char}
      (h : input.get? p = some c) : BMatch (.Literal c) input p (p + 1)
  | dot {input : List Char} {p : Nat} {ch : Char}
      (h : input.get? p = some ch) : BMatch .Dot input p (p + 1)
  | digit {input : List Char} {p : Nat} {ch : Char}
      (h : input.get? p = some ch) (hd : isDigitChar ch = true) :
      BMatch .Digit input p (p + 1)
  | word {input : List Char} {p : Nat} {ch : Char}
      (h : input.get? p = some ch) (hw : isWordChar ch = true) :
      BMatch .Word input p (p + 1)
  | charclass {input : List Char} {p : Nat} {ch : Char} {chars : List Char} {negated : Bool}
      (h : input.get? p = some ch)
      (hc : (negated && !chars.contains ch || !negated && chars.contains ch) = true) :
      BMatch (.CharClass chars negated) input p (p + 1)
  | seq_nil {input : List Char} {p : Nat} : BMatch (.Seq []) input p p
  | seq_cons {input : List Char} {p m q : Nat} {n : RegexNode} {ns : List RegexNode}
      (h1 : BMatch n input p m) (h2 : BMatch (.Seq ns) input m q) :
      BMatch (.Seq (n :: ns)) input p q
  | alt_mem {input : List Char} {p q : Nat} {b : RegexNode} {branches : List RegexNode}
      (hb : b ∈ branches) (h : BMatch b input p q) : BMatch (.Alt branches) input p q
  | opt_skip {input : List Char} {p : Nat} {n : RegexNode} :
      BMatch (.Repeat n .ZeroOrOne) input p p
  | opt_one {input : List Char} {p q : Nat} {n : RegexNode}
      (h : BMatch n input p q) : BMatch (.Repeat n .ZeroOrOne) input p q
  | plus_one {input : List Char} {p q : Nat} {n : RegexNode}
      (h : BMatch n input p q) : BMatch (.Repeat n .OneOrMore) input p q
  | plus_more {input : List Char} {p m q : Nat} {n : RegexNode}
      (h1 : BMatch n input p m) (h2 : BMatch (.Repeat n .OneOrMore) input m q) :
      BMatch (.Repeat n .OneOrMore) input p q

/-- Exactness of the state-set matcher against the reference matcher on
one node: with fuel beyond the input length the matcher returns, keeps
capture tables untouched, and its result positions are exactly the
reference-reachable end positions. -/
def NodeExact (node : RegexNode) : Prop :=
  ∀ f input st, input.length + 1 ≤ f →
    ∃ r, match_with_state f node input st = some r ∧
      (∀ a ∈ r, a.captures = st.captures) ∧
      (∀ q, (∃ a ∈ r, a.pos = q) ↔ BMatch node input st.pos q)

/-! ## Helper lemmas on sorting, deduplication and accumulation -/

theorem mem_insertByPos {a x : MatchState} {l : List MatchState} :
    a ∈ insertByPos x l ↔ a = x ∨ a ∈ l := by
  induction l with
  | nil => simp [insertByPos]
  | cons y ys ih =>
    simp only [insertByPos]
    split
    · simp [List.mem_cons]
    · simp only [List.mem_cons, ih]
      tauto

theorem sortByPos_cons (x : MatchState) (l : List MatchState) :
    sortByPos (x :: l) = insertByPos x (sortByPos l) := rfl

theorem mem_sortByPos {a : MatchState} {l : List MatchState} :
    a ∈ sortByPos l ↔ a ∈ l := by
  induction l with
  | nil => simp [sortByPos]
  | cons y ys ih =>
    rw [sortByPos_cons]
    simp [mem_insertByPos, ih]

theorem mem_dedup_go {a prev : MatchState} {l : List MatchState} :
    a ∈ dedup_go prev l → a ∈ l := by
  induction l generalizing prev with
  | nil => simp [dedup_go]
  | cons y ys ih =>
    simp only [dedup_go]
    split
    · intro h
      exact List.mem_cons_of_mem _ (ih h)
    · intro h
      rcases List.mem_cons.1 h with h | h
      · exact h ▸ List.mem_cons_self _ _
      · exact List.mem_cons_of_mem _ (ih h)

theorem mem_dedupByPos {a : MatchState} {l : List MatchState} :
    a ∈ dedupByPos l → a ∈ l := by
  cases l with
  | nil => simp [dedupByPos]
  | cons x xs =>
    simp only [dedupByPos]
    intro h
    rcases List.mem_cons.1 h with h | h
    · exact h ▸ List.mem_cons_self _ _
    · exact List.mem_cons_of_mem _ (mem_dedup_go h)

theorem pos_dedup_go {prev : MatchState} {l : List MatchState} {p : Nat} :
    ((∃ a ∈ dedup_go prev l, a.pos = p) ∨ p = prev.pos) ↔
      ((∃ a ∈ l, a.pos = p) ∨ p = prev.pos) := by
  induction l generalizing prev with
  | nil => simp [dedup_go]
  | cons y ys ih =>
    simp only [dedup_go]
    split
    · rename_i hy
      rw [ih]
      constructor
      · rintro (⟨a, ha, rfl⟩ | rfl)
        · exact Or.inl ⟨a, List.mem_cons_of_mem _ ha, rfl⟩
        · exact Or.inr rfl
      · rintro (⟨a, ha, rfl⟩ | rfl)
        · rcases List.mem_cons.1 ha with rfl | ha
          · exact Or.inr hy
          · exact Or.inl ⟨a, ha, rfl⟩
        · exact Or.inr rfl
    · constructor
      · rintro (⟨a, ha, rfl⟩ | rfl)
        · rcases List.mem_cons.1 ha with rfl | ha
          · exact Or.inl ⟨a, List.mem_cons_self _ _, rfl⟩
          · rcases (@ih y).1 (Or.inl ⟨a, ha, rfl⟩) with ⟨b, hb, hbp⟩ | h
            · exact Or.inl ⟨b, List.mem_cons_of_mem _ hb, hbp⟩
            · exact Or.inl ⟨y, List.mem_cons_self _ _, h.symm⟩
        · exact Or.inr rfl
      · rintro (⟨a, ha, rfl⟩ | rfl)
        · rcases List.mem_cons.1 ha with rfl | ha
          · exact Or.inl ⟨a, List.mem_cons_self _ _, rfl⟩
          · rcases (@ih y).2 (Or.inl ⟨a, ha, rfl⟩) with ⟨b, hb, hbp⟩ | h
            · exact Or.inl ⟨b, List.mem_cons_of_mem _ hb, hbp⟩
            · exact Or.inl ⟨y, List.mem_cons_self _ _, h.symm⟩
        · exact Or.inr rfl

theorem pos_dedupByPos {l : List MatchState} {p : Nat} :
    (∃ a ∈ dedupByPos l, a.pos = p) ↔ (∃ a ∈ l, a.pos = p) := by
  cases l with
  | nil => simp [dedupByPos]
  | cons x xs =>
    simp only [dedupByPos]
    constructor
    · rintro ⟨a, ha, rfl⟩
      exact ⟨a, mem_dedupByPos (by simpa [dedupByPos] using ha), rfl⟩
    · rintro ⟨a, ha, rfl⟩
      rcases List.mem_cons.1 ha with rfl | ha
      · exact ⟨a, List.mem_cons_self _ _, rfl⟩
      · by_cases hp : a.pos = x.pos
        · exact ⟨x, List.mem_cons_self _ _, hp.symm⟩
        · rcases pos_dedup_go.2 (Or.inl ⟨a, ha, rfl⟩) with ⟨b, hb, hbp⟩ | h
          · exact ⟨b, List.mem_cons_of_mem _ hb, hbp⟩
          · exact absurd h hp

theorem pos_sortdedup {l : List MatchState} {p : Nat} :
    (∃ a ∈ dedupByPos (sortByPos l), a.pos = p) ↔ (∃ a ∈ l, a.pos = p) := by
  rw [pos_dedupByPos]
  constructor
  · rintro ⟨a, ha, rfl⟩
    exact ⟨a, mem_sortByPos.1 ha, rfl⟩
  · rintro ⟨a, ha, rfl⟩
    exact ⟨a, mem_sortByPos.2 ha, rfl⟩

theorem sortdedup_ne_nil {l : List MatchState} (h : l ≠ []) :
    dedupByPos (sortByPos l) ≠ [] := by
  rcases List.exists_mem_of_ne_nil l h with ⟨a, ha⟩
  rcases pos_sortdedup.2 ⟨a, ha, rfl⟩ with ⟨b, hb, _⟩
  exact List.ne_nil_of_mem hb

theorem mem_sortdedup {a : MatchState} {l : List MatchState}
    (h : a ∈ dedupByPos (sortByPos l)) : a ∈ l :=
  mem_sortByPos.1 (mem_dedupByPos h)

theorem mem_push_distinct {a : MatchState} {res fr : List MatchState} :
    a ∈ push_distinct res fr → a ∈ res ∨ a ∈ fr := by
  induction fr generalizing res with
  | nil => intro h; exact Or.inl h
  | cons y ys ih =>
    simp only [push_distinct, List.foldl_cons]
    intro h
    rcases ih h with h2 | h2
    · by_cases hc : res.any (fun r => r.pos = y.pos)
      · simp only [hc, if_pos] at h2
        exact Or.inl h2
      · simp only [hc, if_neg, not_false_iff] at h2
        rcases List.mem_append.1 h2 with h3 | h3
        · exact Or.inl h3
        · exact Or.inr (List.mem_cons.2 (Or.inl (List.mem_singleton.1 h3)))
    · exact Or.inr (List.mem_cons_of_mem _ h2)

theorem pos_push_distinct {res fr : List MatchState} {p : Nat} :
    (∃ a ∈ push_distinct res fr, a.pos = p) ↔
      (∃ a ∈ res, a.pos = p) ∨ (∃ a ∈ fr, a.pos = p) := by
  induction fr generalizing res with
  | nil => simp [push_distinct]
  | cons y ys ih =>
    simp only [push_distinct, List.foldl_cons] at ih ⊢
    rw [ih]
    by_cases hc : res.any (fun r => r.pos = y.pos)
    · simp only [hc, if_pos]
      rcases List.any_eq_true.1 hc with ⟨r, hr, hrp⟩
      simp only [decide_eq_true_eq] at hrp
      constructor
      · rintro (h | h)
        · exact Or.inl h
        · exact Or.inr ⟨_, List.mem_cons_of_mem _ h.choose_spec.1, h.choose_spec.2⟩
      · rintro (h | ⟨a, ha, rfl⟩)
        · exact Or.inl h
        · rcases List.mem_cons.1 ha with rfl | ha
          · exact Or.inl ⟨r, hr, hrp⟩
          · exact Or.inr ⟨a, ha, rfl⟩
    · simp only [hc, if_neg, not_false_iff]
      constructor
      · rintro (⟨a, ha, rfl⟩ | ⟨a, ha, rfl⟩)
        · rcases List.mem_append.1 ha with h3 | h3
          · exact Or.inl ⟨a, h3, rfl⟩
          · exact Or.inr ⟨y, List.mem_cons_self _ _, (List.mem_singleton.1 h3 ▸ rfl)⟩
        · exact Or.inr ⟨a, List.mem_cons_of_mem _ ha, rfl⟩
      · rintro (⟨a, ha, rfl⟩ | ⟨a, ha, rfl⟩)
        · exact Or.inl ⟨a, List.mem_append.2 (Or.inl ha), rfl⟩
        · rcases List.mem_cons.1 ha with rfl | ha
          · exact Or.inl ⟨a, List.mem_append.2 (Or.inr (List.mem_singleton.2 rfl)), rfl⟩
          · exact Or.inr ⟨a, ha, rfl⟩

/-! ## C1: the one-or-more loop does not terminate on zero-width inners

The pattern `()+` compiles to `Seq [Repeat (Group 1 (Seq [])) OneOrMore]`.
The empty group matches zero-width, so the loop frontier never empties
and never advances; the Rust `while !frontier.is_empty()` loop has no
other exit, so the matcher hangs.  Formally: the fueled loop returns
`none` for every fuel value. -/

theorem c1_inner_fix (f : Nat) :
    match_with_state f (RegexNode.Group 1 (RegexNode.Seq [])) []
      ⟨0, [none, some (0, 0)]⟩ = some [⟨0, [none, some (0, 0)]⟩] := by
  simp [match_with_state, seq_go]

theorem c1_loop_diverges (f : Nat) : ∀ results,
    plus_loop f (RegexNode.Group 1 (RegexNode.Seq [])) []
      [⟨0, [none, some (0, 0)]⟩] results = none := by
  induction f with
  | zero => intro results; simp [plus_loop]
  | succ f ih =>
    intro results
    rw [plus_loop]
    simp [map_states, c1_inner_fix, sortByPos, insertByPos, dedupByPos, dedup_go, ih,
      -Prod.mk_zero_zero]

theorem c1_match_node_none (f : Nat) : match_node f (parse "()+".toList) [] 0 = none := by
  have htree : parse "()+".toList =
      RegexNode.Seq [RegexNode.Repeat (RegexNode.Group 1 (RegexNode.Seq []))
        RepeatKind.OneOrMore] := rfl
  rw [htree]
  have hmax : max_group_id (RegexNode.Seq [RegexNode.Repeat
      (RegexNode.Group 1 (RegexNode.Seq [])) RepeatKind.OneOrMore]) = 1 := by
    simp [max_group_id]
  rw [match_node, hmax]
  simp only [List.replicate]
  simp [match_with_state, seq_go, map_states, c1_inner_fix, c1_loop_diverges,
    -Prod.mk_zero_zero]

/-- C1: the claim that every matcher invocation on a parser-produced tree
terminates is FALSE of the code: for the pattern `()+` (a one-or-more
repetition of a zero-width empty group) and the empty input, the
one-or-more frontier loop never terminates — the fueled embedding
returns `none` for every fuel value, i.e. the Rust loop runs forever.
The spec's required guard ("stop iterating once the frontier stops
advancing position") is absent from the code. -/
theorem c1_matcher_divergence : ¬ MatcherTerminates (parse "()+".toList) [] 0 := by
  rintro ⟨f, hf⟩
  rw [c1_match_node_none f] at hf
  simp at hf

/-! ## C2: the top-level query -/

theorem is_match_go_iff (f : Nat) (ast : RegexNode) (chars : List Char) :
    ∀ starts b, is_match_go f ast chars starts = some b →
      (b = true ↔ ∃ s ∈ starts, ∃ r, match_node f ast chars s = some r ∧ r ≠ []) := by
  intro starts
  induction starts with
  | nil =>
    intro b h
    rw [is_match_go] at h
    simp only [Option.some.injEq] at h
    subst h
    simp
  | cons s rest ih =>
    intro b h
    rw [is_match_go] at h
    rcases hm : match_node f ast chars s with _ | r
    · rw [hm] at h; simp at h
    · simp only [hm] at h
      by_cases hr : r.isEmpty
      · rw [if_pos hr] at h
        rw [ih b h]
        have hre : r = [] := List.isEmpty_iff.1 hr
        subst hre
        constructor
        · rintro ⟨a, ha, hrest⟩
          exact ⟨a, List.mem_cons_of_mem _ ha, hrest⟩
        · rintro ⟨a, ha, r2, hr2, hne⟩
          rcases List.mem_cons.1 ha with rfl | ha
          · rw [hm] at hr2
            exact absurd (Option.some.injEq _ _ ▸ hr2).symm (by simpa using hne)
          · exact ⟨a, ha, r2, hr2, hne⟩
      · rw [if_neg hr] at h
        simp only [Option.some.injEq] at h
        subst h
        simp only [true_iff]
        exact ⟨s, List.mem_cons_self _ _, r, hm, fun hc => hr (by simp [hc])⟩

/-- C2: `is_match` returns true iff some start offset between `0` and the
input length (inclusive) yields a non-empty end-position set from the
matcher on the compiled pattern; offsets are tried in increasing order
(`List.range`) and the first non-empty result short-circuits to `true`
(definitionally, in `is_match_go`).  Stated for any execution of the
fueled embedding that returns (`some b`). -/
theorem c2_is_match_iff (f : Nat) (input pattern : List Char) (b : Bool)
    (h : is_match f input pattern = some b) :
    b = true ↔ ∃ start ≤ input.length, ∃ r,
      match_node f (parse pattern) input start = some r ∧ r ≠ [] := by
  rw [is_match] at h
  rw [is_match_go_iff f (parse pattern) input _ b h]
  constructor
  · rintro ⟨s, hs, r, hr, hne⟩
    exact ⟨s, Nat.lt_succ_iff.1 (List.mem_range.1 hs), r, hr, hne⟩
  · rintro ⟨s, hs, r, hr, hne⟩
    exact ⟨s, List.mem_range.2 (Nat.lt_succ_iff.2 hs), r, hr, hne⟩

/-- Witness for C2: pattern `b` on input `ab` matches (found at start 1). -/
theorem c2_is_match_iff_witness :
    is_match 3 ['a', 'b'] ['b'] = some true ∧
      (true = true ↔ ∃ start ≤ (['a', 'b'] : List Char).length, ∃ r,
        match_node 3 (parse ['b']) ['a', 'b'] start = some r ∧ r ≠ []) := by
  have hp : parse ['b'] = RegexNode.Seq [RegexNode.Literal 'b'] := rfl
  have h : is_match 3 ['a', 'b'] ['b'] = some true := by
    rw [is_match, hp]
    simp [is_match_go, match_node, match_with_state, seq_go, map_states, max_group_id,
      dedupByPos, dedup_go, sortByPos, insertByPos, List.range_succ]
  exact ⟨h, c2_is_match_iff 3 _ _ true h⟩

/-! ## C5: backreference semantics -/

/-- C5: matching `BackRef id` looks up slot `id` of the current state's
capture table: out-of-range or unset slots fail with the empty result;
a set span `(sp, ep)` succeeds exactly when the next `ep - sp` input
characters equal the captured span's characters (and stay inside the
input), advancing the position by the span's length.  A backreference to
a group never defined in the pattern (e.g. `\5` with no groups) is not a
parse-time error — the pattern parses to `Seq [BackRef 5]` — but its
slot is out of range for the `max_group_id + 1`-sized table, so it
always fails at match time. -/
theorem c5_backref_semantics (f : Nat) (id : Nat) (input : List Char) (st : MatchState) :
    (st.captures.length ≤ id →
      match_with_state f (RegexNode.BackRef id) input st = some []) ∧
    (id < st.captures.length → st.captures.getD id none = none →
      match_with_state f (RegexNode.BackRef id) input st = some []) ∧
    (∀ sp ep, id < st.captures.length → st.captures.getD id none = some (sp, ep) →
      match_with_state f (RegexNode.BackRef id) input st =
        if st.pos + (ep - sp) ≤ input.length ∧
            (input.drop sp).take (ep - sp) = (input.drop st.pos).take (ep - sp) then
          some [{ st with pos := st.pos + (ep - sp) }]
        else some []) ∧
    (∀ tree start, max_group_id tree < id →
      match_with_state f (RegexNode.BackRef id) input
        ⟨start, List.replicate (max_group_id tree + 1) none⟩ = some []) ∧
    parseOpt ['\\', '5'] = some (RegexNode.Seq [RegexNode.BackRef 5]) := by
  refine ⟨?_, ?_, ?_, ?_, rfl⟩
  · intro hlen
    rw [match_with_state]
    rw [if_pos hlen]
  · intro hlt hnone
    rw [match_with_state, if_neg (by omega), hnone]
  · intro sp ep hlt hsome
    rw [match_with_state, if_neg (by omega), hsome]
  · intro tree start hgt
    rw [match_with_state]
    rw [if_pos (by simp [MatchState.captures]; omega)]

/-- Witness for C5: a set span that matches (`(ab)\1` style situation:
captured span `ab` at positions 0-2, backreference read at position 2),
an unset slot, and an out-of-range slot. -/
theorem c5_backref_semantics_witness :
    (match_with_state 0 (RegexNode.BackRef 1) ['a', 'b', 'a', 'b']
        ⟨2, [none, some (0, 2)]⟩ = some [⟨4, [none, some (0, 2)]⟩]) ∧
    (match_with_state 0 (RegexNode.BackRef 1) ['a', 'b'] ⟨0, [none, none]⟩ = some []) ∧
    (match_with_state 0 (RegexNode.BackRef 5) ['a', 'b']
        ⟨0, [none, none]⟩ = some []) := by
  refine ⟨?_, ?_, ?_⟩
  · rw [(c5_backref_semantics 0 1 ['a', 'b', 'a', 'b'] ⟨2, [none, some (0, 2)]⟩).2.2.1 0 2
      (by decide) (by decide)]
    norm_num
  · exact (c5_backref_semantics 0 1 ['a', 'b'] ⟨0, [none, none]⟩).2.1 (by decide) (by decide)
  · exact (c5_backref_semantics 0 5 ['a', 'b'] ⟨0, [none, none]⟩).1 (by decide)

/-! ## Parser: state and tree bookkeeping lemmas -/

theorem peek_lt {s : PState} {c : Char} (h : peek s = some c) :
    s.pos < s.pattern.length := by
  rw [peek] at h
  exact List.get?_eq_some.1 h |>.1

theorem advance_of_peek {s : PState} {c : Char} (h : peek s = some c) :
    advance s = (some c, { s with pos := s.pos + 1 }) := by
  rw [advance, h]

theorem expect_snd_pattern (s : PState) (c : Char) :
    (expect s c).2.pattern = s.pattern := by
  rw [expect]
  split
  · rename_i h
    rw [advance_of_peek h]
  · rfl

theorem expect_snd_pos (s : PState) (c : Char) :
    s.pos ≤ (expect s c).2.pos ∧
      ((expect s c).2.pos ≤ max s.pos s.pattern.length) := by
  rw [expect]
  split
  · rename_i h
    rw [advance_of_peek h]
    have := peek_lt h
    constructor
    · exact Nat.le_succ _
    · simp
      omega
  · simp

theorem expect_snd_gid (s : PState) (c : Char) :
    (expect s c).2.next_group_id = s.next_group_id := by
  rw [expect]
  split
  · rename_i h
    rw [advance_of_peek h]
  · rfl

theorem group_ids_seq_append (xs ys : List RegexNode) :
    group_ids (.Seq (xs ++ ys)) = group_ids (.Seq xs) ++ group_ids (.Seq ys) := by
  induction xs with
  | nil => simp [group_ids]
  | cons x xs ih => simp [group_ids, ih]

theorem group_ids_alt_append (xs ys : List RegexNode) :
    group_ids (.Alt (xs ++ ys)) = group_ids (.Alt xs) ++ group_ids (.Alt ys) := by
  induction xs with
  | nil => simp [group_ids]
  | cons x xs ih => simp [group_ids, ih]

theorem group_ids_seq_single (n : RegexNode) :
    group_ids (.Seq [n]) = group_ids n := by
  simp [group_ids]

theorem group_ids_alt_single (n : RegexNode) :
    group_ids (.Alt [n]) = group_ids n := by
  simp [group_ids]

theorem group_ids_mkAlt (bs : List RegexNode) :
    group_ids (mkAlt bs) = group_ids (.Alt bs) := by
  match bs with
  | [] => rfl
  | [b] => rw [mkAlt]; exact (group_ids_alt_single b).symm
  | b :: c :: rest => rfl

theorem repOk_seq_append (xs ys : List RegexNode) :
    repOk (.Seq (xs ++ ys)) = (repOk (.Seq xs) && repOk (.Seq ys)) := by
  induction xs with
  | nil => simp [repOk]
  | cons x xs ih => simp [repOk, ih, Bool.and_assoc]

theorem repOk_alt_append (xs ys : List RegexNode) :
    repOk (.Alt (xs ++ ys)) = (repOk (.Alt xs) && repOk (.Alt ys)) := by
  induction xs with
  | nil => simp [repOk]
  | cons x xs ih => simp [repOk, ih, Bool.and_assoc]

theorem repOk_seq_single (n : RegexNode) : repOk (.Seq [n]) = repOk n := by
  simp [repOk]

theorem repOk_alt_single (n : RegexNode) : repOk (.Alt [n]) = repOk n := by
  simp [repOk]

theorem repOk_mkAlt (bs : List RegexNode) :
    repOk (mkAlt bs) = repOk (.Alt bs) := by
  match bs with
  | [] => rfl
  | [b] => rw [mkAlt]; exact (repOk_alt_single b).symm
  | b :: c :: rest => rfl

theorem range'_glue {g g2 g3 : Nat} (h1 : g ≤ g2) (h2 : g2 ≤ g3) :
    List.range' g (g2 - g) ++ List.range' g2 (g3 - g2) = List.range' g (g3 - g) := by
  have := List.range'_append g (g2 - g) (g3 - g2) 1
  simp only [one_mul] at this
  rw [show g + (g2 - g) = g2 by omega] at this
  rw [this, show g3 - g2 + (g2 - g) = g3 - g by omega]

/-! ## Parser totality and structural invariants (master induction)

One induction on fuel establishes, for every parsing function, that the
budget `6 * remaining + 7` fuel suffices, together with the bookkeeping
facts (`PostOk`) needed by the group-identifier and quantifier claims. -/

theorem parser_master : ∀ f : Nat,
    (∀ s : PState, s.pos ≤ s.pattern.length →
      6 * (s.pattern.length - s.pos) + 7 ≤ f →
      ∃ t s2, parse_alt f s = some (t, s2) ∧ PostOk s t s2) ∧
    (∀ s branches, s.pos ≤ s.pattern.length →
      6 * (s.pattern.length - s.pos) + 6 ≤ f →
      ∃ t s2, parse_alt_rest f s branches = some (t, s2) ∧ s2.pattern = s.pattern ∧
        s.pos ≤ s2.pos ∧ s2.pos ≤ s.pattern.length ∧
        s.next_group_id ≤ s2.next_group_id ∧
        group_ids t = group_ids (RegexNode.Alt branches) ++
          List.range' s.next_group_id (s2.next_group_id - s.next_group_id) ∧
        (repOk (RegexNode.Alt branches) = true → repOk t = true)) ∧
    (∀ s : PState, s.pos ≤ s.pattern.length →
      6 * (s.pattern.length - s.pos) + 5 ≤ f →
      ∃ t s2, parse_seq f s = some (t, s2) ∧ PostOk s t s2) ∧
    (∀ s acc, s.pos ≤ s.pattern.length →
      6 * (s.pattern.length - s.pos) + 4 ≤ f →
      ∃ ns s2, parse_seq_rest f s acc = some (ns, s2) ∧ s2.pattern = s.pattern ∧
        s.pos ≤ s2.pos ∧ s2.pos ≤ s.pattern.length ∧
        s.next_group_id ≤ s2.next_group_id ∧
        group_ids (RegexNode.Seq ns) = group_ids (RegexNode.Seq acc) ++
          List.range' s.next_group_id (s2.next_group_id - s.next_group_id) ∧
        (repOk (RegexNode.Seq acc) = true → repOk (RegexNode.Seq ns) = true)) ∧
    (∀ s : PState, s.pos ≤ s.pattern.length →
      6 * (s.pattern.length - s.pos) + 3 ≤ f →
      ∃ t s2, parse_repeat f s = some (t, s2) ∧ PostOk s t s2 ∧
        ((peek s).isSome → s.pos < s2.pos)) ∧
    (∀ s : PState, s.pos ≤ s.pattern.length →
      6 * (s.pattern.length - s.pos) + 2 ≤ f →
      ∃ t s2, parse_atom f s = some (t, s2) ∧ PostOk s t s2 ∧
        ((peek s).isSome → s.pos < s2.pos) ∧
        (isAtomShape t = true ∨ (t = RegexNode.Seq [] ∧ peek s2 = none))) ∧
    (∀ s : PState, peek s = some '[' →
      6 * (s.pattern.length - s.pos) + 1 ≤ f →
      ∃ cs neg s2, parse_char_class f s = some (RegexNode.CharClass cs neg, s2) ∧
        s2.pattern = s.pattern ∧ s.pos < s2.pos ∧ s2.pos ≤ s.pattern.length ∧
        s2.next_group_id = s.next_group_id) ∧
    (∀ s acc, s.pos ≤ s.pattern.length →
      (s.pattern.length - s.pos) + 1 ≤ f →
      ∃ cs s2, class_chars f s acc = some (cs, s2) ∧ s2.pattern = s.pattern ∧
        s.pos ≤ s2.pos ∧ s2.pos ≤ s.pattern.length ∧
        s2.next_group_id = s.next_group_id) := by
  intro f
  induction f with
  | zero =>
    refine ⟨?_, ?_, ?_, ?_, ?_, ?_, ?_, ?_⟩ <;> intros <;> omega
  | succ f ih =>
    obtain ⟨ihA, ihAR, ihS, ihSR, ihR, ihAt, ihCC, ihCH⟩ := ih
    refine ⟨?_, ?_, ?_, ?_, ?_, ?_, ?_, ?_⟩
    · -- parse_alt
      intro s hpos hf
      obtain ⟨t, s2, hps, hpat, hle, hub, hgid, hids, hrep⟩ := ihS s hpos (by omega)
      obtain ⟨t2, s3, hps2, hpat2, hle2, hub2, hgid2, hids2, hrep2⟩ :=
        ihAR s2 [t] (by rw [hpat]; exact hub) (by rw [hpat]; omega)
      refine ⟨t2, s3, ?_, ?_, ?_, ?_, ?_, ?_, ?_⟩
      · simp only [parse_alt, hps, hps2]
      · rw [hpat2, hpat]
      · omega
      · rw [hpat] at hub2; exact hub2
      · omega
      · rw [hids2, group_ids_alt_single, hids, range'_glue hgid hgid2]
      · exact hrep2 (by rw [repOk_alt_single]; exact hrep)
    · -- parse_alt_rest
      intro s branches hpos hf
      by_cases hpk : peek s = some '|'
      · have hlt := peek_lt hpk
        obtain ⟨n, s2, hps, hpat, hle, hub, hgid, hids, hrep⟩ :=
          ihS { s with pos := s.pos + 1 } (by simp; omega) (by simp; omega)
        simp only at hpat hle hub hgid hids
        obtain ⟨t, s3, hps2, hpat2, hle2, hub2, hgid2, hids2, hrep2⟩ :=
          ihAR s2 (branches ++ [n]) (by rw [hpat]; exact hub) (by rw [hpat]; omega)
        refine ⟨t, s3, ?_, ?_, ?_, ?_, ?_, ?_, ?_⟩
        · simp only [parse_alt_rest, if_pos hpk, advance_of_peek hpk, hps, hps2]
        · rw [hpat2, hpat]
        · omega
        · rw [hpat] at hub2; exact hub2
        · omega
        · rw [hids2, group_ids_alt_append, group_ids_alt_single, hids, List.append_assoc,
            range'_glue hgid hgid2]
        · intro hb
          refine hrep2 ?_
          rw [repOk_alt_append, hb, repOk_alt_single, hrep]
          rfl
      · refine ⟨mkAlt branches, s, ?_, rfl, le_refl _, hpos, le_refl _, ?_, ?_⟩
        · simp only [parse_alt_rest, if_neg hpk]
        · rw [group_ids_mkAlt]; simp
        · rw [repOk_mkAlt]; exact id
    · -- parse_seq
      intro s hpos hf
      obtain ⟨ns, s2, hps, hpat, hle, hub, hgid, hids, hrep⟩ := ihSR s [] hpos (by omega)
      refine ⟨RegexNode.Seq ns, s2, ?_, hpat, hle, hub, hgid, ?_, ?_⟩
      · simp only [parse_seq, hps]
      · rw [hids]; simp [group_ids]
      · exact hrep (by simp [repOk])
    · -- parse_seq_rest
      intro s acc hpos hf
      rcases hpk : peek s with _ | ch
      · refine ⟨acc, s, ?_, rfl, le_refl _, hpos, le_refl _, ?_, id⟩
        · simp only [parse_seq_rest, hpk]
        · simp
      · by_cases hstop : ch = ')' ∨ ch = '|'
        · refine ⟨acc, s, ?_, rfl, le_refl _, hpos, le_refl _, ?_, id⟩
          · simp only [parse_seq_rest, hpk, if_pos hstop]
          · simp
        · obtain ⟨n, s2, hps, ⟨hpat, hle, hub, hgid, hids, hrep⟩, hadv⟩ :=
            ihR s hpos (by omega)
          have hadv2 : s.pos < s2.pos := hadv (by rw [hpk]; rfl)
          obtain ⟨ns, s3, hps2, hpat2, hle2, hub2, hgid2, hids2, hrep2⟩ :=
            ihSR s2 (acc ++ [n]) (by rw [hpat]; exact hub) (by rw [hpat]; omega)
          refine ⟨ns, s3, ?_, ?_, ?_, ?_, ?_, ?_, ?_⟩
          · simp only [parse_seq_rest, hpk, if_neg hstop, hps, hps2]
          · rw [hpat2, hpat]
          · omega
          · rw [hpat] at hub2; exact hub2
          · omega
          · rw [hids2, group_ids_seq_append, group_ids_seq_single, hids, List.append_assoc,
              range'_glue hgid hgid2]
          · intro hacc
            refine hrep2 ?_
            rw [repOk_seq_append, hacc, repOk_seq_single, hrep]
            rfl
    · -- parse_repeat
      intro s hpos hf
      obtain ⟨atom, s1, hps, ⟨hpat, hle, hub, hgid, hids, hrep⟩, hadv, hshape⟩ :=
        ihAt s hpos (by omega)
      by_cases hq : peek s1 = some '?'
      · have hlt1 : s1.pos < s1.pattern.length := peek_lt hq
        refine ⟨RegexNode.Repeat atom RepeatKind.ZeroOrOne, { s1 with pos := s1.pos + 1 },
          ?_, ⟨by simpa using hpat, by simp; omega,
            by have hlen := congrArg List.length hpat; simp at hlen ⊢; omega,
            by simpa using hgid, by simpa [group_ids] using hids, ?_⟩, ?_⟩
        · simp only [parse_repeat, hps, hq, advance_of_peek hq]
        · rcases hshape with hsh | ⟨rfl, hnone⟩
          · simp [repOk, hsh, hrep]
          · rw [hnone] at hq; exact absurd hq (by simp)
        · intro _; simp; omega
      · by_cases hp : peek s1 = some '+'
        · have hlt1 : s1.pos < s1.pattern.length := peek_lt hp
          refine ⟨RegexNode.Repeat atom RepeatKind.OneOrMore, { s1 with pos := s1.pos + 1 },
            ?_, ⟨by simpa using hpat, by simp; omega,
              by have hlen := congrArg List.length hpat; simp at hlen ⊢; omega,
              by simpa using hgid, by simpa [group_ids] using hids, ?_⟩, ?_⟩
          · simp only [parse_repeat, hps, hp, advance_of_peek hp]
          · rcases hshape with hsh | ⟨rfl, hnone⟩
            · simp [repOk, hsh, hrep]
            · rw [hnone] at hp; exact absurd hp (by simp)
          · intro _; exact Nat.lt_succ_of_le hle
        · refine ⟨atom, s1, ?_, ⟨hpat, hle, hub, hgid, hids, hrep⟩, hadv⟩
          rcases hpk1 : peek s1 with _ | c
          · simp only [parse_repeat, hps, hpk1]
          · rw [hpk1] at hq hp
            simp only [parse_repeat, hps, hpk1]
    · -- parse_atom
      intro s hpos hf
      rcases hpk : peek s with _ | c
      · refine ⟨RegexNode.Seq [], s, ?_, ⟨rfl, le_refl _, hpos, le_refl _, ?_, ?_⟩, ?_, ?_⟩
        · simp only [parse_atom, hpk]
        · simp [group_ids]
        · simp [repOk]
        · intro hsome; exact absurd hsome (by simp)
        · exact Or.inr ⟨rfl, hpk⟩
      · have hlt := peek_lt hpk
        by_cases hc1 : c = '('
        · subst hc1
          obtain ⟨n, s3, hps, hpat, hle, hub, hgid, hids, hrep⟩ :=
            ihA ⟨s.pattern, s.pos + 1, s.next_group_id + 1⟩ (by simp; omega) (by simp; omega)
          simp only at hpat hle hub hgid hids
          have hep := expect_snd_pattern s3 ')'
          have hepos := expect_snd_pos s3 ')'
          have hegid := expect_snd_gid s3 ')'
          rcases hepos with ⟨h1, h2⟩
          have hlen3 := congrArg List.length hpat
          refine ⟨RegexNode.Group s.next_group_id n, (expect s3 ')').2,
            ?_, ⟨by rw [hep, hpat], by omega, ?_, by omega, ?_, by simpa [repOk] using hrep⟩,
            ?_, Or.inl (by simp [isAtomShape])⟩
          · simp only [parse_atom, hpk, advance_of_peek hpk, alloc_group_id, hps]
          · simp only [Nat.max_def] at h2
            split at h2 <;> omega
          · rw [hegid]
            simp only [group_ids]
            rw [hids, show s3.next_group_id - s.next_group_id =
              (s3.next_group_id - (s.next_group_id + 1)) + 1 by omega, List.range'_succ]
          · intro _; omega
        · by_cases hc2 : c = '['
          · subst hc2
            obtain ⟨cs, neg, s2, hps, hpat, hlt2, hub, hgid⟩ := ihCC s hpk (by omega)
            refine ⟨RegexNode.CharClass cs neg, s2, ?_,
              ⟨hpat, by omega, hub, by omega, ?_, by simp [repOk]⟩,
              fun _ => hlt2, Or.inl (by simp [isAtomShape])⟩
            · simp only [parse_atom, hpk, hps]
            · simp [group_ids, hgid]
          · by_cases hc3 : c = '\\'
            · subst hc3
              rcases hpk1 : peek { s with pos := s.pos + 1 } with _ | c2
              · -- lone backslash at end
                refine ⟨RegexNode.Literal '\\', { s with pos := s.pos + 1 }, ?_,
                  ⟨by simp, by simp, by simp; omega, by simp, by simp [group_ids], by simp [repOk]⟩,
                  fun _ => by simp, Or.inl (by simp [isAtomShape])⟩
                simp only [parse_atom, hpk, advance_of_peek hpk, advance, hpk1]
              · have hlt2 : s.pos + 1 < s.pattern.length := by
                  have := peek_lt hpk1
                  simpa using this
                by_cases hd : c2 = 'd'
                · subst hd
                  refine ⟨RegexNode.Digit, { s with pos := s.pos + 1 + 1 }, ?_,
                    ⟨by simp, by simp; omega, by simp; omega, by simp, by simp [group_ids],
                      by simp [repOk]⟩, fun _ => show s.pos < s.pos + 1 + 1 by omega, Or.inl (by simp [isAtomShape])⟩
                  simp [parse_atom, hpk, advance_of_peek hpk, advance_of_peek hpk1]
                · by_cases hw : c2 = 'w'
                  · subst hw
                    refine ⟨RegexNode.Word, { s with pos := s.pos + 1 + 1 }, ?_,
                      ⟨by simp, by simp; omega, by simp; omega, by simp, by simp [group_ids],
                        by simp [repOk]⟩, fun _ => show s.pos < s.pos + 1 + 1 by omega, Or.inl (by simp [isAtomShape])⟩
                    simp [parse_atom, hpk, advance_of_peek hpk, advance_of_peek hpk1]
                  · by_cases hbr : c2.isDigit ∧ c2 ≠ '0'
                    · refine ⟨RegexNode.BackRef (c2.toNat - '0'.toNat),
                        { s with pos := s.pos + 1 + 1 }, ?_,
                        ⟨by simp, by simp; omega, by simp; omega, by simp, by simp [group_ids],
                          by simp [repOk]⟩, fun _ => show s.pos < s.pos + 1 + 1 by omega, Or.inl (by simp [isAtomShape])⟩
                      simp [parse_atom, hpk, advance_of_peek hpk, advance_of_peek hpk1,
                        hd, hw, hbr.1, hbr.2]
                    · refine ⟨RegexNode.Literal c2, { s with pos := s.pos + 1 + 1 }, ?_,
                        ⟨by simp, by simp; omega, by simp; omega, by simp, by simp [group_ids],
                          by simp [repOk]⟩, fun _ => show s.pos < s.pos + 1 + 1 by omega, Or.inl (by simp [isAtomShape])⟩
                      simp [parse_atom, hpk, advance_of_peek hpk, advance_of_peek hpk1,
                        hd, hw, hbr]
            · by_cases hc4 : c = '.'
              · subst hc4
                refine ⟨RegexNode.Dot, { s with pos := s.pos + 1 }, ?_,
                  ⟨by simp, by simp, by simp; omega, by simp, by simp [group_ids], by simp [repOk]⟩,
                  fun _ => by simp, Or.inl (by simp [isAtomShape])⟩
                simp only [parse_atom, hpk, advance_of_peek hpk]
              · by_cases hc5 : c = '^'
                · subst hc5
                  refine ⟨RegexNode.StartAnchor, { s with pos := s.pos + 1 }, ?_,
                    ⟨by simp, by simp, by simp; omega, by simp, by simp [group_ids], by simp [repOk]⟩,
                    fun _ => by simp, Or.inl (by simp [isAtomShape])⟩
                  simp only [parse_atom, hpk, advance_of_peek hpk]
                · by_cases hc6 : c = '$'
                  · subst hc6
                    refine ⟨RegexNode.EndAnchor, { s with pos := s.pos + 1 }, ?_,
                      ⟨by simp, by simp, by simp; omega, by simp, by simp [group_ids], by simp [repOk]⟩,
                      fun _ => by simp, Or.inl (by simp [isAtomShape])⟩
                    simp only [parse_atom, hpk, advance_of_peek hpk]
                  · refine ⟨RegexNode.Literal c, { s with pos := s.pos + 1 }, ?_,
                      ⟨by simp, by simp, by simp; omega, by simp, by simp [group_ids], by simp [repOk]⟩,
                      fun _ => by simp, Or.inl (by simp [isAtomShape])⟩
                    simp only [parse_atom, hpk, advance_of_peek hpk]
    · -- parse_char_class
      intro s hpk hf
      have hlt := peek_lt hpk
      by_cases hneg : peek { s with pos := s.pos + 1 } = some '^'
      · have hlt2 : s.pos + 1 < s.pattern.length := by simpa using peek_lt hneg
        obtain ⟨cs, s3, hps, hpat, hle, hub, hgid⟩ :=
          ihCH { s with pos := s.pos + 1 + 1 } [] (by simp; omega) (by simp; omega)
        simp only at hpat hle hub hgid
        have hep := expect_snd_pattern s3 ']'
        have hepos := expect_snd_pos s3 ']'
        have hegid := expect_snd_gid s3 ']'
        rcases hepos with ⟨h1, h2⟩
        rw [hpat] at h2
        refine ⟨cs, true, (expect s3 ']').2, ?_, by rw [hep, hpat], by omega, ?_, by omega⟩
        · simp [parse_char_class, advance_of_peek hpk, advance_of_peek hneg, hneg, hps]
        · simp only [Nat.max_def] at h2
          split at h2 <;> omega
      · obtain ⟨cs, s3, hps, hpat, hle, hub, hgid⟩ :=
          ihCH { s with pos := s.pos + 1 } [] (by simp; omega) (by simp; omega)
        simp only at hpat hle hub hgid
        have hep := expect_snd_pattern s3 ']'
        have hepos := expect_snd_pos s3 ']'
        have hegid := expect_snd_gid s3 ']'
        rcases hepos with ⟨h1, h2⟩
        rw [hpat] at h2
        refine ⟨cs, false, (expect s3 ']').2, ?_, by rw [hep, hpat], by omega, ?_, by omega⟩
        · simp [parse_char_class, advance_of_peek hpk, hneg, hps]
        · simp only [Nat.max_def] at h2
          split at h2 <;> omega
    · -- class_chars
      intro s acc hpos hf
      rcases hpk : peek s with _ | ch
      · exact ⟨acc, s, by simp only [class_chars, hpk], rfl, le_refl _, hpos, rfl⟩
      · have hlt := peek_lt hpk
        by_cases hbr : ch = ']'
        · subst hbr
          refine ⟨acc, s, ?_, rfl, le_refl _, hpos, rfl⟩
          simp [class_chars, hpk]
        · obtain ⟨cs, s2, hps, hpat, hle, hub, hgid⟩ :=
            ihCH { s with pos := s.pos + 1 } (acc ++ [ch]) (by simp; omega) (by simp; omega)
          simp only at hpat hle hub hgid
          refine ⟨cs, s2, ?_, hpat, by omega, hub, hgid⟩
          simp only [class_chars, hpk, if_neg hbr, advance_of_peek hpk, hps]

/-- `parse_alt` with the canonical fuel succeeds on every pattern and its
result is `parse pattern`, satisfying `PostOk`. -/
theorem parse_spec (pattern : List Char) :
    ∃ s2, parse_alt (parserFuel pattern) ⟨pattern, 0, 1⟩ = some (parse pattern, s2) ∧
      PostOk ⟨pattern, 0, 1⟩ (parse pattern) s2 := by
  obtain ⟨t, s2, hps, hpost⟩ :=
    (parser_master (parserFuel pattern)).1 ⟨pattern, 0, 1⟩ (by simp) (by simp [parserFuel])
  have ht : parse pattern = t := by
    rw [parse, parseOpt, hps]
    rfl
  exact ⟨s2, ht ▸ hps, ht ▸ hpost⟩

/-- C4: the parser is total — for every pattern string, including
malformed ones, compilation terminates and returns some syntax tree
(the fueled embedding returns `some` at the proved fuel bound; the only
Rust panics in scope, `branches.pop().unwrap()` and the character-class
`advance().unwrap()`, are on paths the embedding shows are taken with
nonempty branches resp. a present character). -/
theorem c4_parser_total (pattern : List Char) : ∃ t, parseOpt pattern = some t := by
  obtain ⟨s2, hps, _⟩ := parse_spec pattern
  refine ⟨parse pattern, ?_⟩
  rw [parseOpt, hps]

/-- C6: in every parser output, the group identifiers listed in preorder
(a group's own identifier before those of its contents, siblings left to
right) form the contiguous range `1, 2, ..., k` — hence identifiers are
unique, contiguous from 1, every nested group's identifier exceeds its
enclosing group's, and sibling groups get identifiers in left-to-right
order.  Concretely, `(a(b)c)` gives the outer group id 1 and the inner
group id 2. -/
theorem c6_group_ids (pattern : List Char) :
    (∃ k, group_ids (parse pattern) = List.range' 1 k) ∧
      parse "(a(b)c)".toList =
        RegexNode.Seq [RegexNode.Group 1 (RegexNode.Seq [RegexNode.Literal 'a',
          RegexNode.Group 2 (RegexNode.Seq [RegexNode.Literal 'b']),
          RegexNode.Literal 'c'])] ∧
      group_ids (parse "(a(b)c)".toList) = [1, 2] := by
  obtain ⟨s2, _, _, _, _, _, hids, _⟩ := parse_spec pattern
  refine ⟨⟨s2.next_group_id - 1, hids⟩, rfl, ?_⟩
  rw [show parse "(a(b)c)".toList =
    RegexNode.Seq [RegexNode.Group 1 (RegexNode.Seq [RegexNode.Literal 'a',
      RegexNode.Group 2 (RegexNode.Seq [RegexNode.Literal 'b']),
      RegexNode.Literal 'c'])] from rfl]
  simp [group_ids]

/-- C7: a postfix `?` or `+` binds exactly the immediately preceding atom
(`repOk` asserts every `Repeat` inner node is an atom shape — never
another `Repeat`, so quantifiers cannot stack), a parenthesized group is
one atom (`(ab)+` wraps the whole group), and in `a??` the second `?` is
not a quantifier but parses as the literal atom `?` (a `?` with no
preceding atom falls through to the parser's catch-all literal case). -/
theorem c7_quantifier_binding (pattern : List Char) :
    repOk (parse pattern) = true ∧
      parse "a??".toList = RegexNode.Seq
        [RegexNode.Repeat (RegexNode.Literal 'a') RepeatKind.ZeroOrOne,
         RegexNode.Literal '?'] ∧
      parse "(ab)+".toList = RegexNode.Seq
        [RegexNode.Repeat (RegexNode.Group 1 (RegexNode.Seq
          [RegexNode.Literal 'a', RegexNode.Literal 'b'])) RepeatKind.OneOrMore] := by
  obtain ⟨s2, _, _, _, _, _, _, hrep⟩ := parse_spec pattern
  exact ⟨hrep, rfl, rfl⟩

/-! ## C8: escape sequences -/

/-- The code's backreference guard `c.is_ascii_digit() && c != '0'` is
exactly the spec's "`\1` through `\9`". -/
theorem digit_cond (c : Char) : (c.isDigit = true ∧ c ≠ '0') ↔ ('1' ≤ c ∧ c ≤ '9') := by
  simp only [Char.isDigit, Char.le_def, UInt32.le_def, BitVec.le_def, Bool.and_eq_true,
    decide_eq_true_eq, ne_eq, Char.ext_iff, UInt32.ext_iff, BitVec.toNat_eq, ge_iff_le]
  have h1 : (('1' : Char).val).toBitVec.toNat = 49 := by decide
  have h9 : (('9' : Char).val).toBitVec.toNat = 57 := by decide
  have h0 : ('0' : Char).val.toNat = 48 := by decide
  have h48 : ((48 : UInt32)).toBitVec.toNat = 48 := by decide
  have h57 : ((57 : UInt32)).toBitVec.toNat = 57 := by decide
  have hcn : c.val.toNat = c.val.toBitVec.toNat := rfl
  rw [h1, h9, h0, h48, h57, hcn]
  omega

/-- C8: escape mapping of the parser — for every character `c`, the
two-character pattern `\c` parses to `\d` → DigitClass, `\w` → WordClass,
`\1`..`\9` → Backreference to that group id (`c - '0'`), any other
escaped character (including `\0`) → Literal `c`; and a lone trailing
backslash parses to Literal `'\'`. -/
theorem c8_escape_mapping (c : Char) :
    parse ['\\', c] = RegexNode.Seq [
      if c = 'd' then RegexNode.Digit
      else if c = 'w' then RegexNode.Word
      else if '1' ≤ c ∧ c ≤ '9' then RegexNode.BackRef (c.toNat - '0'.toNat)
      else RegexNode.Literal c] ∧
    parse ['\\'] = RegexNode.Seq [RegexNode.Literal '\\'] := by
  refine ⟨?_, rfl⟩
  by_cases hd : c = 'd'
  · subst hd; rfl
  · by_cases hw : c = 'w'
    · subst hw; rfl
    · by_cases hb : c.isDigit = true ∧ c ≠ '0'
      · rw [if_neg hd, if_neg hw, if_pos ((digit_cond c).1 hb)]
        simp [parse, parseOpt, parserFuel, parse_alt, parse_alt_rest, parse_seq,
          parse_seq_rest, parse_repeat, parse_atom, peek, advance, mkAlt, hd, hw, hb.1, hb.2]
      · rw [if_neg hd, if_neg hw, if_neg (fun h => hb ((digit_cond c).2 h))]
        have hb2 : ¬(c.isDigit = true ∧ ¬c = '0') := by simpa using hb
        simp [parse, parseOpt, parserFuel, parse_alt, parse_alt_rest, parse_seq,
          parse_seq_rest, parse_repeat, parse_atom, peek, advance, mkAlt, hd, hw, hb2]

/-! ## Matcher position/capture-table invariants (C9, C10)

`node_bounded` is one structural recursion over the tree: from any
in-bounds state, every state the matcher returns has a position between
the start position and the input length, and a capture table of
unchanged length.  The list folds (`map_states`, `seq_go`, `alt_go`) and
the one-or-more loop get their own parameterized lemmas. -/

theorem binv_sortdedup {input : List Char} {lb CL : Nat} {l : List MatchState}
    (h : ∀ a ∈ l, BInv input lb CL a) :
    ∀ a ∈ dedupByPos (sortByPos l), BInv input lb CL a :=
  fun a ha => h a (mem_sortdedup ha)

theorem map_states_bounded {node : RegexNode} (hnode : NodeBounded node) :
    ∀ (f : Nat) (input : List Char) (sts : List MatchState) (lb CL : Nat)
      (r : List MatchState), (∀ a ∈ sts, BInv input lb CL a) →
      map_states f node input sts = some r → ∀ a ∈ r, BInv input lb CL a := by
  intro f input sts
  induction sts with
  | nil =>
    intro lb CL r hsts hm a ha
    rw [map_states] at hm
    rw [← Option.some.inj hm] at ha
    simp at ha
  | cons y ys ih =>
    intro lb CL r hsts hm a ha
    rw [map_states] at hm
    rcases h1 : match_with_state f node input y with _ | rs
    · simp only [h1] at hm
      exact Option.noConfusion hm
    · simp only [h1] at hm
      rcases h2 : map_states f node input ys with _ | rest2
      · simp only [h2] at hm
        exact Option.noConfusion hm
      · simp only [h2, Option.some.injEq] at hm
        rw [← hm] at ha
        have hy := hsts y (List.mem_cons_self _ _)
        rcases List.mem_append.1 ha with ha2 | ha2
        · have hb := hnode f input y rs hy.2.1 h1 a ha2
          exact ⟨le_trans hy.1 hb.1, hb.2.1, hy.2.2 ▸ hb.2.2⟩
        · exact ih lb CL rest2 (fun b hb => hsts b (List.mem_cons_of_mem _ hb)) h2 a ha2

theorem plus_loop_bounded {inner : RegexNode} (hnode : NodeBounded inner) :
    ∀ (f : Nat) (input : List Char) (frontier results : List MatchState) (lb CL : Nat)
      (r : List MatchState), (∀ a ∈ frontier, BInv input lb CL a) →
      (∀ a ∈ results, BInv input lb CL a) →
      plus_loop f inner input frontier results = some r → ∀ a ∈ r, BInv input lb CL a := by
  intro f
  induction f with
  | zero =>
    intro input frontier results lb CL r hf hr hm a ha
    by_cases hfe : frontier.isEmpty
    · rw [plus_loop, if_pos hfe] at hm
      rw [← Option.some.inj hm] at ha
      exact hr a ha
    · rw [plus_loop, if_neg hfe] at hm
      simp at hm
  | succ f ih =>
    intro input frontier results lb CL r hf hr hm a ha
    by_cases hfe : frontier.isEmpty
    · rw [plus_loop, if_pos hfe] at hm
      rw [← Option.some.inj hm] at ha
      exact hr a ha
    · rw [plus_loop, if_neg hfe] at hm
      rcases h1 : map_states (f + 1) inner input frontier with _ | nextRaw
      · simp only [h1] at hm
        exact Option.noConfusion hm
      · simp only [h1] at hm
        have hres2 : ∀ b ∈ push_distinct results frontier, BInv input lb CL b := by
          intro b hb
          rcases mem_push_distinct hb with hb2 | hb2
          · exact hr b hb2
          · exact hf b hb2
        have hnext : ∀ b ∈ dedupByPos (sortByPos nextRaw), BInv input lb CL b :=
          binv_sortdedup (map_states_bounded hnode (f + 1) input frontier lb CL nextRaw hf h1)
        exact ih input _ _ lb CL r hnext hres2 hm a ha

theorem seq_go_bounded : ∀ (nodes : List RegexNode), (∀ n ∈ nodes, NodeBounded n) →
    ∀ (f : Nat) (input : List Char) (states : List MatchState) (lb CL : Nat)
      (r : List MatchState), (∀ a ∈ states, BInv input lb CL a) →
      seq_go f nodes input states = some r → ∀ a ∈ r, BInv input lb CL a := by
  intro nodes
  induction nodes with
  | nil =>
    intro _ f input states lb CL r hstates hm a ha
    rw [seq_go] at hm
    rw [← Option.some.inj hm] at ha
    exact hstates a ha
  | cons n rest ih =>
    intro hn f input states lb CL r hstates hm a ha
    rw [seq_go] at hm
    rcases h1 : map_states f n input states with _ | next
    · simp only [h1] at hm
      exact Option.noConfusion hm
    · simp only [h1] at hm
      by_cases hne : next.isEmpty
      · rw [if_pos hne] at hm
        rw [← Option.some.inj hm] at ha
        simp at ha
      · rw [if_neg hne] at hm
        have hnext : ∀ b ∈ next, BInv input lb CL b :=
          map_states_bounded (hn n (List.mem_cons_self _ _)) f input states lb CL next hstates h1
        exact ih (fun m hm2 => hn m (List.mem_cons_of_mem _ hm2)) f input _ lb CL r
          (binv_sortdedup hnext) hm a ha

theorem alt_go_bounded : ∀ (branches : List RegexNode), (∀ n ∈ branches, NodeBounded n) →
    ∀ (f : Nat) (input : List Char) (st : MatchState) (r : List MatchState),
      st.pos ≤ input.length → alt_go f branches input st = some r →
      ∀ a ∈ r, BInv input st.pos st.captures.length a := by
  intro branches
  induction branches with
  | nil =>
    intro _ f input st r hpos hm a ha
    rw [alt_go] at hm
    rw [← Option.some.inj hm] at ha
    simp at ha
  | cons b rest ih =>
    intro hb f input st r hpos hm a ha
    rw [alt_go] at hm
    rcases h1 : match_with_state f b input st with _ | rs
    · simp only [h1] at hm
      exact Option.noConfusion hm
    · simp only [h1] at hm
      rcases h2 : alt_go f rest input st with _ | rest2
      · simp only [h2] at hm
        exact Option.noConfusion hm
      · simp only [h2, Option.some.injEq] at hm
        rw [← hm] at ha
        rcases List.mem_append.1 ha with ha2 | ha2
        · exact hb b (List.mem_cons_self _ _) f input st rs hpos h1 a ha2
        · exact ih (fun m hm2 => hb m (List.mem_cons_of_mem _ hm2)) f input st rest2 hpos h2 a ha2

theorem node_bounded : (node : RegexNode) → NodeBounded node
  | .Literal c => by
    intro f input st r hpos hm a ha
    rw [match_with_state] at hm
    rcases hg : input.get? st.pos with _ | ch
    · simp only [hg] at hm
      rw [← Option.some.inj hm] at ha
      simp at ha
    · have hlt := (List.get?_eq_some.1 hg).1
      simp only [hg] at hm
      by_cases hcc : ch = c
      · rw [if_pos hcc] at hm
        rw [← Option.some.inj hm] at ha
        simp only [List.mem_singleton] at ha
        subst ha
        exact ⟨Nat.le_succ _, hlt, rfl⟩
      · rw [if_neg hcc] at hm
        rw [← Option.some.inj hm] at ha
        simp at ha
  | .Dot => by
    intro f input st r hpos hm a ha
    rw [match_with_state] at hm
    rcases hg : input.get? st.pos with _ | ch
    · simp only [hg] at hm
      rw [← Option.some.inj hm] at ha
      simp at ha
    · have hlt := (List.get?_eq_some.1 hg).1
      simp only [hg] at hm
      rw [← Option.some.inj hm] at ha
      simp only [List.mem_singleton] at ha
      subst ha
      exact ⟨Nat.le_succ _, hlt, rfl⟩
  | .Digit => by
    intro f input st r hpos hm a ha
    rw [match_with_state] at hm
    rcases hg : input.get? st.pos with _ | ch
    · simp only [hg] at hm
      rw [← Option.some.inj hm] at ha
      simp at ha
    · have hlt := (List.get?_eq_some.1 hg).1
      simp only [hg] at hm
      by_cases hcc : isDigitChar ch
      · rw [if_pos hcc] at hm
        rw [← Option.some.inj hm] at ha
        simp only [List.mem_singleton] at ha
        subst ha
        exact ⟨Nat.le_succ _, hlt, rfl⟩
      · rw [if_neg hcc] at hm
        rw [← Option.some.inj hm] at ha
        simp at ha
  | .Word => by
    intro f input st r hpos hm a ha
    rw [match_with_state] at hm
    rcases hg : input.get? st.pos with _ | ch
    · simp only [hg] at hm
      rw [← Option.some.inj hm] at ha
      simp at ha
    · have hlt := (List.get?_eq_some.1 hg).1
      simp only [hg] at hm
      by_cases hcc : isWordChar ch
      · rw [if_pos hcc] at hm
        rw [← Option.some.inj hm] at ha
        simp only [List.mem_singleton] at ha
        subst ha
        exact ⟨Nat.le_succ _, hlt, rfl⟩
      · rw [if_neg hcc] at hm
        rw [← Option.some.inj hm] at ha
        simp at ha
  | .CharClass chars negated => by
    intro f input st r hpos hm a ha
    rw [match_with_state] at hm
    rcases hg : input.get? st.pos with _ | ch
    · simp only [hg] at hm
      rw [← Option.some.inj hm] at ha
      simp at ha
    · have hlt := (List.get?_eq_some.1 hg).1
      simp only [hg] at hm
      by_cases hcc : (negated && !chars.contains ch || !negated && chars.contains ch) = true
      · rw [if_pos hcc] at hm
        rw [← Option.some.inj hm] at ha
        simp only [List.mem_singleton] at ha
        subst ha
        exact ⟨Nat.le_succ _, hlt, rfl⟩
      · rw [if_neg hcc] at hm
        rw [← Option.some.inj hm] at ha
        simp at ha
  | .StartAnchor => by
    intro f input st r hpos hm a ha
    rw [match_with_state] at hm
    by_cases hz : st.pos = 0
    · rw [if_pos hz] at hm
      rw [← Option.some.inj hm] at ha
      simp only [List.mem_singleton] at ha
      subst ha
      exact ⟨le_refl _, hpos, rfl⟩
    · rw [if_neg hz] at hm
      rw [← Option.some.inj hm] at ha
      simp at ha
  | .EndAnchor => by
    intro f input st r hpos hm a ha
    rw [match_with_state] at hm
    by_cases hz : st.pos = input.length
    · rw [if_pos hz] at hm
      rw [← Option.some.inj hm] at ha
      simp only [List.mem_singleton] at ha
      subst ha
      exact ⟨le_refl _, hpos, rfl⟩
    · rw [if_neg hz] at hm
      rw [← Option.some.inj hm] at ha
      simp at ha
  | .Group id inner => by
    have ihinner := node_bounded inner
    intro f input st r hpos hm a ha
    rw [match_with_state] at hm
    rcases h1 : match_with_state f inner input st with _ | rs
    · simp only [h1] at hm
      exact Option.noConfusion hm
    · simp only [h1, Option.some.injEq] at hm
      rw [← hm] at ha
      rcases List.mem_map.1 ha with ⟨b, hb, rfl⟩
      have hbb := ihinner f input st rs hpos h1 b hb
      by_cases hid : id < b.captures.length
      · rw [if_pos hid]
        exact ⟨hbb.1, hbb.2.1, by simpa using hbb.2.2⟩
      · rw [if_neg hid]
        exact hbb
  | .BackRef id => by
    intro f input st r hpos hm a ha
    rw [match_with_state] at hm
    by_cases hlen : st.captures.length ≤ id
    · rw [if_pos hlen] at hm
      rw [← Option.some.inj hm] at ha
      simp at ha
    · rw [if_neg hlen] at hm
      rcases hc : st.captures.getD id none with _ | se
      · simp only [hc] at hm
        rw [← Option.some.inj hm] at ha
        simp at ha
      · rcases se with ⟨sp, ep⟩
        simp only [hc] at hm
        by_cases hcond : st.pos + (ep - sp) ≤ input.length ∧
            (input.drop sp).take (ep - sp) = (input.drop st.pos).take (ep - sp)
        · rw [if_pos hcond] at hm
          rw [← Option.some.inj hm] at ha
          simp only [List.mem_singleton] at ha
          subst ha
          exact ⟨Nat.le_add_right _ _, hcond.1, rfl⟩
        · rw [if_neg hcond] at hm
          rw [← Option.some.inj hm] at ha
          simp at ha
  | .Seq nodes => by
    have ih : ∀ n ∈ nodes, NodeBounded n := fun n _ => node_bounded n
    intro f input st r hpos hm a ha
    rw [match_with_state] at hm
    refine seq_go_bounded nodes ih f input [st] st.pos st.captures.length r ?_ hm a ha
    intro b hb
    rcases List.mem_singleton.1 hb with rfl
    exact ⟨le_refl _, hpos, rfl⟩
  | .Alt branches => by
    have ih : ∀ n ∈ branches, NodeBounded n := fun n _ => node_bounded n
    intro f input st r hpos hm a ha
    rw [match_with_state] at hm
    rcases h1 : alt_go f branches input st with _ | all
    · simp only [h1] at hm
      exact Option.noConfusion hm
    · simp only [h1, Option.some.injEq] at hm
      rw [← hm] at ha
      exact alt_go_bounded branches ih f input st all hpos h1 a (mem_sortdedup ha)
  | .Repeat inner .ZeroOrOne => by
    have ihinner := node_bounded inner
    intro f input st r hpos hm a ha
    rw [match_with_state] at hm
    rcases h1 : match_with_state f inner input st with _ | rs
    · simp only [h1] at hm
      exact Option.noConfusion hm
    · simp only [h1, Option.some.injEq] at hm
      rw [← hm] at ha
      have ha2 := mem_sortdedup ha
      rcases List.mem_cons.1 ha2 with rfl | ha3
      · exact ⟨le_refl _, hpos, rfl⟩
      · exact ihinner f input st rs hpos h1 a ha3
  | .Repeat inner .OneOrMore => by
    have ihinner := node_bounded inner
    intro f input st r hpos hm a ha
    rw [match_with_state] at hm
    rcases h1 : match_with_state f inner input st with _ | frontier
    · simp only [h1] at hm
      exact Option.noConfusion hm
    · simp only [h1] at hm
      exact plus_loop_bounded ihinner f input frontier [] st.pos st.captures.length r
        (ihinner f input st frontier hpos h1) (by simp) hm a ha
termination_by node => sizeOf node

/-- Every group identifier occurring in a tree is at most the tree's
maximum group identifier (so the `max_group_id + 1`-sized capture table
has a slot for every group). -/
theorem group_ids_le : (t : RegexNode) → ∀ id ∈ group_ids t, id ≤ max_group_id t
  | .Group g inner => by
    intro id hid
    simp only [group_ids] at hid
    rcases List.mem_cons.1 hid with rfl | hid2
    · simp only [max_group_id]
      exact le_max_left _ _
    · simp only [max_group_id]
      exact le_trans (group_ids_le inner id hid2) (le_max_right _ _)
  | .Seq [] => by simp [group_ids]
  | .Seq (n :: ns) => by
    intro id hid
    simp only [group_ids] at hid
    simp only [max_group_id]
    rcases List.mem_append.1 hid with h | h
    · exact le_trans (group_ids_le n id h) (le_max_left _ _)
    · exact le_trans (group_ids_le (.Seq ns) id h) (le_max_right _ _)
  | .Alt [] => by simp [group_ids]
  | .Alt (n :: ns) => by
    intro id hid
    simp only [group_ids] at hid
    simp only [max_group_id]
    rcases List.mem_append.1 hid with h | h
    · exact le_trans (group_ids_le n id h) (le_max_left _ _)
    · exact le_trans (group_ids_le (.Alt ns) id h) (le_max_right _ _)
  | .Repeat inner k => by
    intro id hid
    simp only [group_ids] at hid
    simp only [max_group_id]
    exact group_ids_le inner id hid
  | .BackRef i => by simp [group_ids]
  | .StartAnchor => by simp [group_ids]
  | .EndAnchor => by simp [group_ids]
  | .Dot => by simp [group_ids]
  | .Digit => by simp [group_ids]
  | .Word => by simp [group_ids]
  | .CharClass cs neg => by simp [group_ids]
  | .Literal c => by simp [group_ids]
termination_by t => sizeOf t

/-- C9: for every tree, input and start position within the input, every
end position returned by `match_node` lies between the start position
and the input length — no matching step moves backwards or past the end
of the input. -/
theorem c9_positions_bounded (f : Nat) (tree : RegexNode) (input : List Char)
    (start : Nat) (r : List Nat) (hstart : start ≤ input.length)
    (h : match_node f tree input start = some r) :
    ∀ e ∈ r, start ≤ e ∧ e ≤ input.length := by
  rw [match_node] at h
  rcases h1 : match_with_state f tree input
      ⟨start, List.replicate (max_group_id tree + 1) none⟩ with _ | rs
  · rw [h1] at h
    exact absurd h (by simp)
  · simp only [h1, Option.some.injEq] at h
    rw [← h]
    intro e he
    rcases List.mem_map.1 he with ⟨b, hb, rfl⟩
    have hbb := node_bounded tree f input _ rs hstart h1 b hb
    exact ⟨hbb.1, hbb.2.1⟩

/-- Witness for C9: pattern tree of `a+` on input `ab` from start 0
returns end position 1, which lies between 0 and 2. -/
theorem c9_positions_bounded_witness :
    (0 : Nat) ≤ (['a', 'b'] : List Char).length ∧
      match_node 3 (parse ['a', '+']) ['a', 'b'] 0 = some [1] ∧
      ∀ e ∈ [1], 0 ≤ e ∧ e ≤ (['a', 'b'] : List Char).length := by
  have hp : parse ['a', '+'] =
      RegexNode.Seq [RegexNode.Repeat (RegexNode.Literal 'a') RepeatKind.OneOrMore] := rfl
  have hm : match_node 3 (parse ['a', '+']) ['a', 'b'] 0 = some [1] := by
    rw [hp]
    simp [match_node, match_with_state, seq_go, map_states, plus_loop, push_distinct,
      max_group_id, dedupByPos, dedup_go, sortByPos, insertByPos, isDigitChar, isWordChar]
  exact ⟨by simp, hm, c9_positions_bounded 3 (parse ['a', '+']) ['a', 'b'] 0 [1]
    (by simp) hm⟩

/-- C10: capture tables never change length during matching: every state
reachable from a state with an `L`-slot table has an `L`-slot table; in
particular every state explored in a `match_node` run keeps the
`max_group_id + 1` slots created for the initial state.  Moreover every
`Group` identifier occurring in the tree is within bounds for that
table, so the `Group` case's in-bounds guard never fails. -/
theorem c10_capture_tables (f : Nat) (tree : RegexNode) (input : List Char) (start : Nat) :
    (∀ st r, st.pos ≤ input.length → match_with_state f tree input st = some r →
      ∀ a ∈ r, a.captures.length = st.captures.length) ∧
    (∀ rs, start ≤ input.length →
      match_with_state f tree input
        ⟨start, List.replicate (max_group_id tree + 1) none⟩ = some rs →
      ∀ a ∈ rs, a.captures.length = max_group_id tree + 1) ∧
    (∀ id, id ∈ group_ids tree → id < max_group_id tree + 1) := by
  refine ⟨?_, ?_, ?_⟩
  · intro st r hpos hm a ha
    exact (node_bounded tree f input st r hpos hm a ha).2.2
  · intro rs hstart hm a ha
    have h2 := (node_bounded tree f input _ rs hstart hm a ha).2.2
    simpa using h2
  · intro id hid
    have := group_ids_le tree id hid
    omega

/-- Witness for C10: matching `(a)` against `a` — the only final state
keeps the 2-slot table (max group id 1), and the sole group id 1 is in
bounds. -/
theorem c10_capture_tables_witness :
    (match_with_state 1 (parse ['(', 'a', ')']) ['a'] ⟨0, [none, none]⟩ =
        some [⟨1, [none, some (0, 1)]⟩] ∧
      (1 : Nat) ≤ 2) ∧
      match_with_state 1 (parse ['(', 'a', ')']) ['a']
        ⟨0, List.replicate (max_group_id (parse ['(', 'a', ')']) + 1) none⟩ =
        some [⟨1, [none, some (0, 1)]⟩] ∧
      ∀ id ∈ group_ids (parse ['(', 'a', ')']), id < max_group_id (parse ['(', 'a', ')']) + 1 := by
  have hp : parse ['(', 'a', ')'] =
      RegexNode.Seq [RegexNode.Group 1 (RegexNode.Seq [RegexNode.Literal 'a'])] := rfl
  have hmax : max_group_id (parse ['(', 'a', ')']) = 1 := by
    rw [hp]; simp [max_group_id]
  have hm : match_with_state 1 (parse ['(', 'a', ')']) ['a'] ⟨0, [none, none]⟩ =
      some [⟨1, [none, some (0, 1)]⟩] := by
    rw [hp]
    simp [match_with_state, seq_go, map_states, dedupByPos, dedup_go, sortByPos,
      insertByPos, -Prod.mk_zero_zero]
  refine ⟨⟨hm, by omega⟩, ?_, (c10_capture_tables 1 (parse ['(', 'a', ')']) ['a'] 0).2.2⟩
  rw [hmax]
  simpa using hm

theorem atom_plain_leaf {t : RegexNode} (ha : isAtomShape t = true)
    (hp : plainB t = true) : isLeaf t = true := by
  cases t <;> simp_all [isAtomShape, plainB, isLeaf]

theorem leaf_step {node : RegexNode} (hl : isLeaf node = true)
    (f : Nat) (input : List Char) (st : MatchState) :
    match_with_state f node input st =
      some (if leafAccept node input st.pos then
        [{ st with pos := st.pos + 1 }] else []) := by
  cases node with
  | Dot =>
    rw [match_with_state]
    rcases hg : input.get? st.pos with _ | ch <;>
      (have hg2 := hg; rw [List.get?_eq_getElem?] at hg2) <;> simp [leafAccept, hg, hg2] <;>
      (try (split <;> rfl))
  | Digit =>
    rw [match_with_state]
    rcases hg : input.get? st.pos with _ | ch <;>
      (have hg2 := hg; rw [List.get?_eq_getElem?] at hg2) <;> simp [leafAccept, hg, hg2] <;>
      (try (split <;> rfl))
  | Word =>
    rw [match_with_state]
    rcases hg : input.get? st.pos with _ | ch <;>
      (have hg2 := hg; rw [List.get?_eq_getElem?] at hg2) <;> simp [leafAccept, hg, hg2] <;>
      (try (split <;> rfl))
  | CharClass chars negated =>
    rw [match_with_state]
    rcases hg : input.get? st.pos with _ | ch <;>
      (have hg2 := hg; rw [List.get?_eq_getElem?] at hg2) <;> simp [leafAccept, hg, hg2] <;>
      (try (split <;> rfl))
  | Literal c =>
    rw [match_with_state]
    rcases hg : input.get? st.pos with _ | ch <;>
      (have hg2 := hg; rw [List.get?_eq_getElem?] at hg2) <;> simp [leafAccept, hg, hg2] <;>
      (try (split <;> rfl))
  | Seq ns => simp [isLeaf] at hl
  | Alt bs => simp [isLeaf] at hl
  | Repeat n k => simp [isLeaf] at hl
  | Group i n => simp [isLeaf] at hl
  | BackRef i => simp [isLeaf] at hl
  | StartAnchor => simp [isLeaf] at hl
  | EndAnchor => simp [isLeaf] at hl





theorem bmatch_leaf {node : RegexNode} (hl : isLeaf node = true)
    {input : List Char} {p q : Nat} :
    BMatch node input p q ↔ (leafAccept node input p = true ∧ q = p + 1) := by
  constructor
  · intro h
    cases h <;> simp only [isLeaf] at hl <;> simp_all [leafAccept]
  · rintro ⟨ha, rfl⟩
    rcases hg : input.get? p with _ | ch
    · rw [leafAccept, hg] at ha
      simp at ha
    · cases node with
      | Dot => exact BMatch.dot hg
      | Digit =>
        rw [leafAccept, hg] at ha
        exact BMatch.digit hg ha
      | Word =>
        rw [leafAccept, hg] at ha
        exact BMatch.word hg ha
      | CharClass chars negated =>
        rw [leafAccept, hg] at ha
        exact BMatch.charclass hg ha
      | Literal c =>
        rw [leafAccept, hg] at ha
        simp only [decide_eq_true_eq] at ha
        subst ha
        exact BMatch.lit hg
      | Seq ns => simp [isLeaf] at hl
      | Alt bs => simp [isLeaf] at hl
      | Repeat n k => simp [isLeaf] at hl
      | Group i n => simp [isLeaf] at hl
      | BackRef i => simp [isLeaf] at hl
      | StartAnchor => simp [isLeaf] at hl
      | EndAnchor => simp [isLeaf] at hl


theorem leafAccept_lt {node : RegexNode} {input : List Char} {p : Nat}
    (h : leafAccept node input p = true) : p < input.length := by
  rw [leafAccept] at h
  rcases hg : input.get? p with _ | ch
  · rw [hg] at h; simp at h
  · exact (List.get?_eq_some.1 hg).1

theorem bmatch_plus_leaf_aux {node : RegexNode} (hl : isLeaf node = true)
    {input : List Char} :
    ∀ {t : RegexNode} {input2 : List Char} {p2 q2 : Nat}, BMatch t input2 p2 q2 →
      t = RegexNode.Repeat node RepeatKind.OneOrMore → input2 = input →
      (p2 < q2 ∧ ∀ i, p2 ≤ i → i < q2 → leafAccept node input i = true) := by
  intro t input2 p2 q2 hb
  induction hb with
  | lit h => intro ht _; exact absurd ht (by simp)
  | dot h => intro ht _; exact absurd ht (by simp)
  | digit h hd => intro ht _; exact absurd ht (by simp)
  | word h hw => intro ht _; exact absurd ht (by simp)
  | charclass h hc => intro ht _; exact absurd ht (by simp)
  | seq_nil => intro ht _; exact absurd ht (by simp)
  | seq_cons h1 h2 ih1 ih2 => intro ht _; exact absurd ht (by simp)
  | alt_mem hb2 h ih => intro ht _; exact absurd ht (by simp)
  | opt_skip => intro ht _; exact absurd ht (by simp)
  | opt_one h ih => intro ht _; exact absurd ht (by simp)
  | plus_one h ih =>
    intro ht hi
    injection ht with hn hk
    subst hn
    subst hi
    obtain ⟨ha, rfl⟩ := (bmatch_leaf hl).1 h
    refine ⟨Nat.lt_succ_self _, ?_⟩
    intro i h1 h2
    obtain rfl := Nat.le_antisymm (Nat.lt_succ_iff.1 h2) h1
    exact ha
  | plus_more h1 h2 ih1 ih2 =>
    intro ht hi
    injection ht with hn hk
    subst hn
    subst hi
    obtain ⟨hm, hall⟩ := ih2 rfl rfl
    obtain ⟨ha, rfl⟩ := (bmatch_leaf hl).1 h1
    refine ⟨by omega, ?_⟩
    intro i hi1 hi2
    rcases Nat.eq_or_lt_of_le hi1 with rfl | hgt
    · exact ha
    · exact hall i hgt hi2

theorem bmatch_plus_leaf {node : RegexNode} (hl : isLeaf node = true)
    {input : List Char} {p q : Nat} :
    BMatch (.Repeat node .OneOrMore) input p q ↔
      (p < q ∧ ∀ i, p ≤ i → i < q → leafAccept node input i = true) := by
  constructor
  · intro h
    exact bmatch_plus_leaf_aux hl h rfl rfl
  · rintro ⟨hpq, hall⟩
    have rev : ∀ d p2, q - p2 = d → p2 < q →
        (∀ i, p2 ≤ i → i < q → leafAccept node input i = true) →
        BMatch (.Repeat node .OneOrMore) input p2 q := by
      intro d
      induction d with
      | zero => intro p2 hd hlt _; omega
      | succ d ih =>
        intro p2 hd hlt hall2
        have hstep : BMatch node input p2 (p2 + 1) :=
          (bmatch_leaf hl).2 ⟨hall2 p2 (le_refl _) hlt, rfl⟩
        rcases Nat.eq_or_lt_of_le (Nat.succ_le_of_lt hlt) with heq | hgt
        · have heq2 : p2 + 1 = q := heq
          rw [← heq2]
          exact BMatch.plus_one hstep
        · refine BMatch.plus_more hstep (ih (p2 + 1) (by omega) hgt ?_)
          intro i h1 h2
          exact hall2 i (by omega) h2
    exact rev (q - p) p rfl hpq hall


theorem plus_loop_step {f : Nat} {node : RegexNode} {input : List Char} {st : MatchState}
    {results next : List MatchState}
    (hmap : map_states (f + 1) node input [st] = some next) :
    plus_loop (f + 1) node input [st] results =
      plus_loop f node input (dedupByPos (sortByPos next)) (push_distinct results [st]) := by
  rw [plus_loop]
  simp only [List.isEmpty_cons, Bool.false_eq_true, if_false, hmap]

theorem plus_loop_empty (f : Nat) (node : RegexNode) (input : List Char)
    (results : List MatchState) : plus_loop f node input [] results = some results := by
  rw [plus_loop.eq_def]
  simp

theorem plus_loop_leaf {node : RegexNode} (hl : isLeaf node = true) (input : List Char) :
    ∀ (f : Nat) (st : MatchState) (results : List MatchState),
      st.pos ≤ input.length → input.length + 1 ≤ f + st.pos →
      ∃ r, plus_loop f node input [st] results = some r ∧
        (∀ a ∈ r, a ∈ results ∨ a.captures = st.captures) ∧
        (∀ q, (∃ a ∈ r, a.pos = q) ↔ ((∃ a ∈ results, a.pos = q) ∨
          (st.pos ≤ q ∧ ∀ i, st.pos ≤ i → i < q → leafAccept node input i = true))) := by
  intro f
  induction f with
  | zero =>
    intro st results hpos hfuel
    omega
  | succ f ih =>
    intro st results hpos hfuel
    have hmap0 : map_states (f + 1) node input [st] =
        some (if leafAccept node input st.pos then
          [{ st with pos := st.pos + 1 }] else []) := by
      rw [map_states, leaf_step hl, map_states]
      simp
    by_cases hacc : leafAccept node input st.pos
    · rw [if_pos hacc] at hmap0
      have hstep := @plus_loop_step f node input st results _ hmap0
      have hdd : dedupByPos (sortByPos [{ st with pos := st.pos + 1 }]) =
          [{ st with pos := st.pos + 1 }] := rfl
      rw [hdd] at hstep
      have hlt := leafAccept_lt hacc
      obtain ⟨r, hr, hcap, hiff⟩ := ih { st with pos := st.pos + 1 }
        (push_distinct results [st]) (by simp; omega) (by simp; omega)
      refine ⟨r, by rw [hstep]; exact hr, ?_, ?_⟩
      · intro a ha
        rcases hcap a ha with ha2 | ha2
        · rcases mem_push_distinct ha2 with ha3 | ha3
          · exact Or.inl ha3
          · rcases List.mem_singleton.1 ha3 with rfl
            exact Or.inr rfl
        · exact Or.inr ha2
      · intro q
        rw [hiff q]
        have hpp := @pos_push_distinct results [st] q
        constructor
        · rintro (hres | hrange)
          · rcases hpp.1 hres with h3 | h3
            · exact Or.inl h3
            · rcases h3 with ⟨a, ha, rfl⟩
              rcases List.mem_singleton.1 ha with rfl
              exact Or.inr ⟨le_refl _, fun i h1 h2 => absurd h2 (by omega)⟩
          · simp only at hrange
            refine Or.inr ⟨by omega, ?_⟩
            intro i h1 h2
            rcases Nat.eq_or_lt_of_le h1 with rfl | hgt
            · exact hacc
            · exact hrange.2 i (by omega) h2
        · rintro (hres | hrange)
          · exact Or.inl (hpp.2 (Or.inl hres))
          · rcases Nat.eq_or_lt_of_le hrange.1 with rfl | hgt
            · exact Or.inl (hpp.2 (Or.inr ⟨st, List.mem_singleton.2 rfl, rfl⟩))
            · refine Or.inr ⟨by simp; omega, ?_⟩
              intro i h1 h2
              simp only at h1
              exact hrange.2 i (by omega) h2
    · rw [if_neg hacc] at hmap0
      have hstep := @plus_loop_step f node input st results _ hmap0
      have hdd : dedupByPos (sortByPos ([] : List MatchState)) = [] := rfl
      rw [hdd, plus_loop_empty] at hstep
      refine ⟨push_distinct results [st], hstep, ?_, ?_⟩
      · intro a ha
        rcases mem_push_distinct ha with ha2 | ha2
        · exact Or.inl ha2
        · rcases List.mem_singleton.1 ha2 with rfl
          exact Or.inr rfl
      · intro q
        have hpp := @pos_push_distinct results [st] q
        rw [hpp]
        constructor
        · rintro (hres | h3)
          · exact Or.inl hres
          · rcases h3 with ⟨a, ha, rfl⟩
            rcases List.mem_singleton.1 ha with rfl
            exact Or.inr ⟨le_refl _, fun i h1 h2 => absurd h2 (by omega)⟩
        · rintro (hres | hrange)
          · exact Or.inl hres
          · rcases Nat.eq_or_lt_of_le hrange.1 with rfl | hgt
            · exact Or.inr ⟨st, List.mem_singleton.2 rfl, rfl⟩
            · exact absurd (hrange.2 st.pos (le_refl _) hgt) (by simp [hacc])


theorem bmatch_seq_nil_iff {input : List Char} {p q : Nat} :
    BMatch (.Seq []) input p q ↔ q = p := by
  constructor
  · intro h
    cases h
    rfl
  · rintro rfl
    exact BMatch.seq_nil

theorem bmatch_seq_cons_iff {input : List Char} {p q : Nat} {n : RegexNode}
    {ns : List RegexNode} :
    BMatch (.Seq (n :: ns)) input p q ↔
      ∃ m, BMatch n input p m ∧ BMatch (.Seq ns) input m q := by
  constructor
  · intro h
    cases h with
    | seq_cons h1 h2 => exact ⟨_, h1, h2⟩
  · rintro ⟨m, h1, h2⟩
    exact BMatch.seq_cons h1 h2

theorem bmatch_alt_iff {input : List Char} {p q : Nat} {bs : List RegexNode} :
    BMatch (.Alt bs) input p q ↔ ∃ b ∈ bs, BMatch b input p q := by
  constructor
  · intro h
    cases h with
    | alt_mem hb h2 => exact ⟨_, hb, h2⟩
  · rintro ⟨b, hb, h2⟩
    exact BMatch.alt_mem hb h2

theorem bmatch_opt_iff {input : List Char} {p q : Nat} {n : RegexNode} :
    BMatch (.Repeat n .ZeroOrOne) input p q ↔ q = p ∨ BMatch n input p q := by
  constructor
  · intro h
    cases h with
    | opt_skip => exact Or.inl rfl
    | opt_one h2 => exact Or.inr h2
  · rintro (rfl | h2)
    · exact BMatch.opt_skip
    · exact BMatch.opt_one h2

theorem plainB_seq_mem {ns : List RegexNode} (hp : plainB (.Seq ns) = true) :
    ∀ n ∈ ns, plainB n = true := by
  induction ns with
  | nil => simp
  | cons m ms ih =>
    simp only [plainB, Bool.and_eq_true] at hp
    intro n hn
    rcases List.mem_cons.1 hn with rfl | hn2
    · exact hp.1
    · exact ih hp.2 n hn2

theorem plainB_alt_mem {ns : List RegexNode} (hp : plainB (.Alt ns) = true) :
    ∀ n ∈ ns, plainB n = true := by
  induction ns with
  | nil => simp
  | cons m ms ih =>
    simp only [plainB, Bool.and_eq_true] at hp
    intro n hn
    rcases List.mem_cons.1 hn with rfl | hn2
    · exact hp.1
    · exact ih hp.2 n hn2

theorem repOk_seq_mem {ns : List RegexNode} (hp : repOk (.Seq ns) = true) :
    ∀ n ∈ ns, repOk n = true := by
  induction ns with
  | nil => simp
  | cons m ms ih =>
    simp only [repOk, Bool.and_eq_true] at hp
    intro n hn
    rcases List.mem_cons.1 hn with rfl | hn2
    · exact hp.1
    · exact ih hp.2 n hn2

theorem repOk_alt_mem {ns : List RegexNode} (hp : repOk (.Alt ns) = true) :
    ∀ n ∈ ns, repOk n = true := by
  induction ns with
  | nil => simp
  | cons m ms ih =>
    simp only [repOk, Bool.and_eq_true] at hp
    intro n hn
    rcases List.mem_cons.1 hn with rfl | hn2
    · exact hp.1
    · exact ih hp.2 n hn2

theorem map_states_exact {node : RegexNode} (hx : NodeExact node) :
    ∀ (f : Nat) (input : List Char) (sts : List MatchState)
      (caps : List (Option (Nat × Nat))),
      input.length + 1 ≤ f → (∀ a ∈ sts, a.captures = caps) →
      ∃ r, map_states f node input sts = some r ∧ (∀ a ∈ r, a.captures = caps) ∧
        (∀ q, (∃ a ∈ r, a.pos = q) ↔ ∃ b ∈ sts, BMatch node input b.pos q) := by
  intro f input sts
  induction sts with
  | nil =>
    intro caps hf hcaps
    exact ⟨[], by rw [map_states], by simp, by simp⟩
  | cons y ys ih =>
    intro caps hf hcaps
    obtain ⟨ry, hry, hcy, hiy⟩ := hx f input y hf
    obtain ⟨rr, hrr, hcr, hir⟩ := ih caps hf (fun b hb => hcaps b (List.mem_cons_of_mem _ hb))
    refine ⟨ry ++ rr, ?_, ?_, ?_⟩
    · simp only [map_states, hry, hrr]
    · intro a ha
      rcases List.mem_append.1 ha with h | h
      · rw [hcy a h]
        exact hcaps y (List.mem_cons_self _ _)
      · exact hcr a h
    · intro q
      constructor
      · rintro ⟨a, ha, rfl⟩
        rcases List.mem_append.1 ha with h | h
        · exact ⟨y, List.mem_cons_self _ _, (hiy a.pos).1 ⟨a, h, rfl⟩⟩
        · obtain ⟨b, hb, hbm⟩ := (hir a.pos).1 ⟨a, h, rfl⟩
          exact ⟨b, List.mem_cons_of_mem _ hb, hbm⟩
      · rintro ⟨b, hb, hbm⟩
        rcases List.mem_cons.1 hb with rfl | hb2
        · obtain ⟨a, ha, hap⟩ := (hiy q).2 hbm
          exact ⟨a, List.mem_append.2 (Or.inl ha), hap⟩
        · obtain ⟨a, ha, hap⟩ := (hir q).2 ⟨b, hb2, hbm⟩
          exact ⟨a, List.mem_append.2 (Or.inr ha), hap⟩


theorem seq_go_exact : ∀ (nodes : List RegexNode), (∀ n ∈ nodes, NodeExact n) →
    ∀ (f : Nat) (input : List Char) (states : List MatchState)
      (caps : List (Option (Nat × Nat))),
      input.length + 1 ≤ f → (∀ a ∈ states, a.captures = caps) →
      ∃ r, seq_go f nodes input states = some r ∧ (∀ a ∈ r, a.captures = caps) ∧
        (∀ q, (∃ a ∈ r, a.pos = q) ↔ ∃ b ∈ states, BMatch (.Seq nodes) input b.pos q) := by
  intro nodes
  induction nodes with
  | nil =>
    intro _ f input states caps hf hcaps
    refine ⟨states, by rw [seq_go], hcaps, ?_⟩
    intro q
    simp only [bmatch_seq_nil_iff]
    constructor
    · rintro ⟨a, ha, rfl⟩
      exact ⟨a, ha, rfl⟩
    · rintro ⟨b, hb, rfl⟩
      exact ⟨b, hb, rfl⟩
  | cons n rest ih =>
    intro hn f input states caps hf hcaps
    obtain ⟨next, hnext, hcn, hin⟩ :=
      map_states_exact (hn n (List.mem_cons_self _ _)) f input states caps hf hcaps
    by_cases hne : next.isEmpty
    · have hnil : next = [] := List.isEmpty_iff.1 hne
      subst hnil
      refine ⟨[], ?_, by simp, ?_⟩
      · simp only [seq_go, hnext]
        simp
      · intro q
        constructor
        · rintro ⟨a, ha, rfl⟩
          simp at ha
        · rintro ⟨b, hb, hbm⟩
          obtain ⟨m, h1, h2⟩ := bmatch_seq_cons_iff.1 hbm
          obtain ⟨a, ha, hap⟩ := (hin m).2 ⟨b, hb, h1⟩
          simp at ha
    · obtain ⟨r, hr, hcr, hir⟩ := ih (fun m hm => hn m (List.mem_cons_of_mem _ hm)) f input
        (dedupByPos (sortByPos next)) caps hf (fun a ha => hcn a (mem_sortdedup ha))
      refine ⟨r, ?_, hcr, ?_⟩
      · simp only [seq_go, hnext, if_neg hne]
        exact hr
      · intro q
        rw [hir q]
        constructor
        · rintro ⟨b, hb, hbm⟩
          obtain ⟨c, hc, hcp⟩ := pos_sortdedup.1 ⟨b, hb, rfl⟩
          obtain ⟨s0, hs0, hs0m⟩ := (hin b.pos).1 ⟨c, hc, hcp⟩
          exact ⟨s0, hs0, bmatch_seq_cons_iff.2 ⟨b.pos, hs0m, hbm⟩⟩
        · rintro ⟨b, hb, hbm⟩
          obtain ⟨m, h1, h2⟩ := bmatch_seq_cons_iff.1 hbm
          obtain ⟨a, ha, hap⟩ := (hin m).2 ⟨b, hb, h1⟩
          obtain ⟨c, hc, hcp⟩ := pos_sortdedup.2 ⟨a, ha, hap⟩
          refine ⟨c, hc, ?_⟩
          rw [hcp]
          exact h2

theorem alt_go_exact : ∀ (branches : List RegexNode), (∀ n ∈ branches, NodeExact n) →
    ∀ (f : Nat) (input : List Char) (st : MatchState), input.length + 1 ≤ f →
      ∃ r, alt_go f branches input st = some r ∧ (∀ a ∈ r, a.captures = st.captures) ∧
        (∀ q, (∃ a ∈ r, a.pos = q) ↔ ∃ b ∈ branches, BMatch b input st.pos q) := by
  intro branches
  induction branches with
  | nil =>
    intro _ f input st hf
    exact ⟨[], by rw [alt_go], by simp, by simp⟩
  | cons b rest ih =>
    intro hb f input st hf
    obtain ⟨rb, hrb, hcb, hib⟩ := hb b (List.mem_cons_self _ _) f input st hf
    obtain ⟨rr, hrr, hcr, hir⟩ := ih (fun m hm => hb m (List.mem_cons_of_mem _ hm)) f input st hf
    refine ⟨rb ++ rr, ?_, ?_, ?_⟩
    · simp only [alt_go, hrb, hrr]
    · intro a ha
      rcases List.mem_append.1 ha with h | h
      · exact hcb a h
      · exact hcr a h
    · intro q
      constructor
      · rintro ⟨a, ha, rfl⟩
        rcases List.mem_append.1 ha with h | h
        · exact ⟨b, List.mem_cons_self _ _, (hib a.pos).1 ⟨a, h, rfl⟩⟩
        · obtain ⟨c, hc, hcm⟩ := (hir a.pos).1 ⟨a, h, rfl⟩
          exact ⟨c, List.mem_cons_of_mem _ hc, hcm⟩
      · rintro ⟨c, hc, hcm⟩
        rcases List.mem_cons.1 hc with rfl | hc2
        · obtain ⟨a, ha, hap⟩ := (hib q).2 hcm
          exact ⟨a, List.mem_append.2 (Or.inl ha), hap⟩
        · obtain ⟨a, ha, hap⟩ := (hir q).2 ⟨c, hc2, hcm⟩
          exact ⟨a, List.mem_append.2 (Or.inr ha), hap⟩


theorem leaf_exact {node : RegexNode} (hl : isLeaf node = true) : NodeExact node := by
  intro f input st hf
  refine ⟨_, leaf_step hl f input st, ?_, ?_⟩
  · intro a ha
    by_cases hacc : leafAccept node input st.pos
    · rw [if_pos hacc] at ha
      rcases List.mem_singleton.1 ha with rfl
      rfl
    · rw [if_neg hacc] at ha
      simp at ha
  · intro q
    rw [bmatch_leaf hl]
    by_cases hacc : leafAccept node input st.pos
    · rw [if_pos hacc]
      constructor
      · rintro ⟨a, ha, rfl⟩
        rcases List.mem_singleton.1 ha with rfl
        exact ⟨hacc, rfl⟩
      · rintro ⟨-, rfl⟩
        exact ⟨_, List.mem_singleton.2 rfl, rfl⟩
    · rw [if_neg hacc]
      constructor
      · rintro ⟨a, ha, rfl⟩
        simp at ha
      · rintro ⟨ha, -⟩
        exact absurd ha hacc

theorem node_exact : (node : RegexNode) → plainB node = true → repOk node = true →
    NodeExact node
  | .Literal c => fun _ _ => leaf_exact (by simp [isLeaf])
  | .Dot => fun _ _ => leaf_exact (by simp [isLeaf])
  | .Digit => fun _ _ => leaf_exact (by simp [isLeaf])
  | .Word => fun _ _ => leaf_exact (by simp [isLeaf])
  | .CharClass chars negated => fun _ _ => leaf_exact (by simp [isLeaf])
  | .Group id inner => by
    intro hp
    simp [plainB] at hp
  | .BackRef id => by
    intro hp
    simp [plainB] at hp
  | .StartAnchor => by
    intro hp
    simp [plainB] at hp
  | .EndAnchor => by
    intro hp
    simp [plainB] at hp
  | .Seq nodes => by
    intro hp hr f input st hf
    have ih : ∀ n ∈ nodes, NodeExact n := fun n hn =>
      node_exact n (plainB_seq_mem hp n hn) (repOk_seq_mem hr n hn)
    obtain ⟨r, h1, h2, h3⟩ := seq_go_exact nodes ih f input [st] st.captures hf (by simp)
    rw [match_with_state]
    refine ⟨r, h1, h2, ?_⟩
    intro q
    rw [h3 q]
    simp
  | .Alt branches => by
    intro hp hr f input st hf
    have ih : ∀ n ∈ branches, NodeExact n := fun n hn =>
      node_exact n (plainB_alt_mem hp n hn) (repOk_alt_mem hr n hn)
    obtain ⟨all, h1, h2, h3⟩ := alt_go_exact branches ih f input st hf
    rw [match_with_state]
    refine ⟨dedupByPos (sortByPos all), by simp only [h1], ?_, ?_⟩
    · intro a ha
      exact h2 a (mem_sortdedup ha)
    · intro q
      rw [bmatch_alt_iff]
      constructor
      · rintro ⟨a, ha, rfl⟩
        exact (h3 a.pos).1 (pos_sortdedup.1 ⟨a, ha, rfl⟩)
      · intro hb
        exact pos_sortdedup.2 ((h3 q).2 hb)
  | .Repeat inner .ZeroOrOne => by
    intro hp hr f input st hf
    simp only [plainB] at hp
    simp only [repOk, Bool.and_eq_true] at hr
    have ihinner := node_exact inner hp hr.2
    obtain ⟨rs, h1, h2, h3⟩ := ihinner f input st hf
    rw [match_with_state]
    refine ⟨dedupByPos (sortByPos (st :: rs)), by simp only [h1], ?_, ?_⟩
    · intro a ha
      rcases List.mem_cons.1 (mem_sortdedup ha) with rfl | ha2
      · rfl
      · exact h2 a ha2
    · intro q
      rw [bmatch_opt_iff]
      constructor
      · rintro ⟨a, ha, rfl⟩
        rcases List.mem_cons.1 (mem_sortdedup ha) with rfl | ha2
        · exact Or.inl rfl
        · exact Or.inr ((h3 a.pos).1 ⟨a, ha2, rfl⟩)
      · rintro (rfl | hb)
        · exact pos_sortdedup.2 ⟨st, List.mem_cons_self _ _, rfl⟩
        · obtain ⟨a, ha, hap⟩ := (h3 q).2 hb
          exact pos_sortdedup.2 ⟨a, List.mem_cons_of_mem _ ha, hap⟩
  | .Repeat inner .OneOrMore => by
    intro hp hr f input st hf
    simp only [plainB] at hp
    simp only [repOk, Bool.and_eq_true] at hr
    have hleaf : isLeaf inner = true := atom_plain_leaf hr.1 hp
    rw [match_with_state, leaf_step hleaf]
    by_cases hacc : leafAccept inner input st.pos
    · rw [if_pos hacc]
      have hlt := leafAccept_lt hacc
      obtain ⟨r, h1, h2, h3⟩ := plus_loop_leaf hleaf input f { st with pos := st.pos + 1 } []
        (by simp; omega) (by simp; omega)
      simp only [List.not_mem_nil, false_or, false_and, exists_false] at h2 h3
      refine ⟨r, h1, h2, ?_⟩
      intro q
      rw [h3 q, bmatch_plus_leaf hleaf]
      constructor
      · rintro ⟨hge, hall⟩
        refine ⟨by omega, ?_⟩
        intro i h1i h2i
        rcases Nat.eq_or_lt_of_le h1i with rfl | hgt
        · exact hacc
        · exact hall i (by omega) h2i
      · rintro ⟨hlt2, hall⟩
        refine ⟨by omega, ?_⟩
        intro i h1i h2i
        exact hall i (by omega) h2i
    · rw [if_neg hacc]
      refine ⟨[], plus_loop_empty f inner input [], by simp, ?_⟩
      intro q
      rw [bmatch_plus_leaf hleaf]
      constructor
      · rintro ⟨a, ha, rfl⟩
        simp at ha
      · rintro ⟨hlt2, hall⟩
        exact absurd (hall st.pos (le_refl _) hlt2) hacc
termination_by node => sizeOf node


theorem is_match_go_total (f : Nat) (ast : RegexNode) (chars : List Char) :
    ∀ starts, (∀ s ∈ starts, (match_node f ast chars s).isSome) →
      ∃ b, is_match_go f ast chars starts = some b := by
  intro starts
  induction starts with
  | nil => exact fun _ => ⟨false, rfl⟩
  | cons s rest ih =>
    intro h
    obtain ⟨r, hr⟩ := Option.isSome_iff_exists.1 (h s (List.mem_cons_self _ _))
    rw [is_match_go]
    simp only [hr]
    by_cases he : r.isEmpty
    · rw [if_pos he]
      exact ih (fun a ha => h a (List.mem_cons_of_mem _ ha))
    · rw [if_neg he]
      exact ⟨true, rfl⟩

/-- C3: for plain patterns (no groups, backreferences, or anchors), the
state-set matcher and the brute-force recursive reference matcher
`BMatch` report the same yes/no outcome on every input (at sufficient
fuel, which exists by C9-style boundedness of plain trees). -/
theorem c3_plain_equiv (pattern input : List Char) (f : Nat)
    (hplain : plainB (parse pattern) = true)
    (hf : input.length + 1 ≤ f) :
    ∃ b, is_match f input pattern = some b ∧
      (b = true ↔ ∃ start ≤ input.length, ∃ e, BMatch (parse pattern) input start e) := by
  obtain ⟨s2, _, hpost⟩ := parse_spec pattern
  have hrep : repOk (parse pattern) = true := hpost.2.2.2.2.2
  have hex := node_exact (parse pattern) hplain hrep
  have hkey : ∀ s, ∃ r, match_node f (parse pattern) input s = some r ∧
      (r ≠ [] ↔ ∃ e, BMatch (parse pattern) input s e) := by
    intro s
    obtain ⟨r0, h1, _, h3⟩ :=
      hex f input ⟨s, List.replicate (max_group_id (parse pattern) + 1) none⟩ hf
    refine ⟨r0.map (fun a => a.pos), ?_, ?_⟩
    · simp only [match_node, h1]
    · constructor
      · intro hne
        rcases r0 with _ | ⟨a, r0t⟩
        · simp at hne
        · exact ⟨a.pos, (h3 a.pos).1 ⟨a, List.mem_cons_self _ _, rfl⟩⟩
      · rintro ⟨e, he⟩
        obtain ⟨a, ha, hap⟩ := (h3 e).2 he
        intro hc
        rw [List.map_eq_nil] at hc
        subst hc
        simp at ha
  have htot : ∀ s ∈ List.range (input.length + 1),
      (match_node f (parse pattern) input s).isSome := by
    intro s _
    obtain ⟨r, hr, _⟩ := hkey s
    rw [hr]
    rfl
  obtain ⟨b, hb⟩ := is_match_go_total f (parse pattern) input _ htot
  have hbm : is_match f input pattern = some b := by
    rw [is_match]
    exact hb
  refine ⟨b, hbm, ?_⟩
  rw [c2_is_match_iff f input pattern b hbm]
  constructor
  · rintro ⟨s, hs, r, hr, hne⟩
    obtain ⟨r2, hr2, hiff⟩ := hkey s
    have hr2r : r2 = r := Option.some.inj (hr2.symm.trans hr)
    obtain ⟨e, he⟩ := hiff.1 (hr2r ▸ hne)
    exact ⟨s, hs, e, he⟩
  · rintro ⟨s, hs, e, he⟩
    obtain ⟨r2, hr2, hiff⟩ := hkey s
    exact ⟨s, hs, r2, hr2, hiff.2 ⟨e, he⟩⟩

/-- Witness for C3 at pattern `a+`, input `ba`, fuel 3. -/
theorem c3_plain_equiv_witness :
    ∃ b, is_match 3 ['b', 'a'] ['a', '+'] = some b ∧
      (b = true ↔ ∃ start ≤ (['b', 'a'] : List Char).length, ∃ e,
        BMatch (parse ['a', '+']) ['b', 'a'] start e) :=
  c3_plain_equiv ['a', '+'] ['b', 'a'] 3
    (by
      have hp : parse ['a', '+'] =
          RegexNode.Seq [RegexNode.Repeat (RegexNode.Literal 'a') RepeatKind.OneOrMore] := rfl
      rw [hp]
      simp [plainB])
    (by decide)

end Grep
